import Mathlib

/-!
Verification of the unistore typed table store.

This file gives a shallow embedding of the core of the repository:
the key codec (src/key.rs), the typed table front-end and the worker
dispatch (src/native.rs), and the secondary index (src/index.rs).
The persistent storage engine (the fjall crate) and the value
serializer (rmp_serde) are external collaborators; they are modelled
from their interface contract (spec section 6): a partition is a
byte-sorted association list from byte keys to byte values, and the
value serializer is an injective length-prefixed byte encoding.
Machine strings are modelled as their UTF-8 byte lists together with
the UTF-8 validity predicate that Rust's String type maintains.
-/

namespace Unistore

/-- A byte string: the model works with `List Nat` whose elements are
byte values. Encoders only ever produce elements below 256. -/
abbrev Bytes := List Nat

/-- Byte-lexicographic strict order on byte strings, with a proper
prefix ordered before its extensions.  This is the order the storage
engine keeps partition entries in (spec section 6). -/
def lexLt : Bytes → Bytes → Bool
  | _, [] => false
  | [], _ :: _ => true
  | a :: as, b :: bs => if a < b then true else if a = b then lexLt as bs else false

/-! ## Storage engine partition model

Model of the external fjall partition contract (spec section 6): a
partition is an association list from byte keys to byte values kept in
ascending byte-lexicographic key order with distinct keys.  `tblGet`,
`tblInsert`, `tblRemove`, the emptiness check, the first-entry read
and the ascending prefix iteration are the primitives the worker maps
Actions onto 1:1 (src/native.rs, start_worker). -/

/-- A storage partition: key/value byte pairs. -/
abbrev EngineTable := List (Bytes × Bytes)

/-- Well-formedness of a partition: keys strictly ascending in
byte-lexicographic order (hence distinct). -/
def tblSorted (t : EngineTable) : Prop :=
  List.Pairwise (fun a b => lexLt a.1 b.1 = true) t

/-- Point lookup, first entry with the given key. -/
def tblGet : EngineTable → Bytes → Option Bytes
  | [], _ => none
  | (k', v') :: rest, k => if k = k' then some v' else tblGet rest k

/-- Insert or overwrite, keeping entries in ascending key order. -/
def tblInsert : EngineTable → Bytes → Bytes → EngineTable
  | [], k, v => [(k, v)]
  | (k', v') :: rest, k, v =>
    if k = k' then (k, v) :: rest
    else if lexLt k k' = true then (k, v) :: (k', v') :: rest
    else (k', v') :: tblInsert rest k v

/-- Delete the entry with the given key, if present. -/
def tblRemove : EngineTable → Bytes → EngineTable
  | [], _ => []
  | (k', v') :: rest, k => if k = k' then rest else (k', v') :: tblRemove rest k

/-- Membership test (`contains_key`). -/
def tblContains (t : EngineTable) (k : Bytes) : Bool :=
  (tblGet t k).isSome

/-- Emptiness check (`is_empty`). -/
def tblIsEmpty (t : EngineTable) : Bool :=
  t.isEmpty

/-- First key/value pair in key order (`first_key_value`). -/
def tblFirstKv (t : EngineTable) : Option (Bytes × Bytes) :=
  t.head?

/-- Entry count (`len`). -/
def tblLen (t : EngineTable) : Nat :=
  t.length

/-- Ascending iteration over all entries whose key starts with the
given byte prefix (fjall's `partition.prefix(..)`). -/
def prefixScan (t : EngineTable) (p : Bytes) : EngineTable :=
  t.filter (fun e => p.isPrefixOf e.1)

/-! ## UTF-8 validity

Model of the UTF-8 validation performed by Rust's `String::from_utf8`
(used by `impl Key for String::from_bytes`, src/key.rs lines 18-20).
A Rust `String` is a byte vector that satisfies this predicate, and
`from_utf8` succeeds exactly on such byte vectors. -/

/-- A UTF-8 continuation byte: `0x80..=0xBF`. -/
def utf8Cont (c : Nat) : Bool :=
  0x80 ≤ c && c ≤ 0xBF

/-- Classify a UTF-8 lead byte: `some (n, lo, hi)` means the byte
opens a sequence with `n` continuation bytes whose first continuation
byte must lie in `lo..=hi` (the remaining ones in `0x80..=0xBF`);
`none` means the byte can never start a sequence.  The ranges are the
ones of the Unicode standard (and Rust's `core::str` validator),
rejecting overlong forms, surrogates and code points above
`U+10FFFF`. -/
def utf8Lead (x : Nat) : Option (Nat × Nat × Nat) :=
  if x ≤ 0x7F then some (0, 0, 0)
  else if 0xC2 ≤ x && x ≤ 0xDF then some (1, 0x80, 0xBF)
  else if x = 0xE0 then some (2, 0xA0, 0xBF)
  else if (0xE1 ≤ x && x ≤ 0xEC) || x = 0xEE || x = 0xEF then some (2, 0x80, 0xBF)
  else if x = 0xED then some (2, 0x80, 0x9F)
  else if x = 0xF0 then some (3, 0x90, 0xBF)
  else if 0xF1 ≤ x && x ≤ 0xF3 then some (3, 0x80, 0xBF)
  else if x = 0xF4 then some (3, 0x80, 0x8F)
  else none

/-- The UTF-8 well-formedness automaton. -/
def validUtf8 : Bytes → Bool
  | [] => true
  | x :: rest =>
    match utf8Lead x with
    | none => false
    | some (0, _, _) => validUtf8 rest
    | some (1, lo, hi) =>
      match rest with
      | c1 :: rest1 => (lo ≤ c1 && c1 ≤ hi) && validUtf8 rest1
      | _ => false
    | some (2, lo, hi) =>
      match rest with
      | c1 :: c2 :: rest2 => (lo ≤ c1 && c1 ≤ hi) && utf8Cont c2 && validUtf8 rest2
      | _ => false
    | some (3, lo, hi) =>
      match rest with
      | c1 :: c2 :: c3 :: rest3 =>
        (lo ≤ c1 && c1 ≤ hi) && utf8Cont c2 && utf8Cont c3 && validUtf8 rest3
      | _ => false
    | some (_ + 4, _, _) => false

/-! ## Key codec

Shallow embedding of the `Key` trait and its implementations
(src/key.rs): every key kind encodes to an ordered byte form
(`as_bytes`/`from_bytes`) and to a display string
(`to_key_string`/`from_key_string`).  Strings model Rust `String`
values as their UTF-8 bytes; integers are `Nat`/`Int` values within
the machine-integer range of their kind. -/

/-- The crate error type (src/lib.rs `enum Error`), restricted to the
constructors the verified paths can produce.  `panicSeparator` stands
for the `expect` panic on a composite index key without a separator
(src/index.rs lines 24-26). -/
inductive UniError where
  | keyTypeMismatch
  | valueTypeMismatch
  | missingIndex
  | nativeDecode
  | panicSeparator
  deriving DecidableEq, Repr

/-- Big-endian byte encoding of a natural number in `w` bytes
(Rust's `to_be_bytes` on a `w`-byte unsigned integer). -/
def beBytes : Nat → Nat → Bytes
  | 0, _ => []
  | w + 1, n => n / 256 ^ w :: beBytes w (n % 256 ^ w)

/-- Big-endian byte decoding (Rust's `from_be_bytes`). -/
def fromBeBytes (l : Bytes) : Nat :=
  l.foldl (fun acc b => acc * 256 + b) 0

/-- Decimal digit bytes of a natural number, most significant first
(Rust's integer `to_string`). -/
def natToDec (n : Nat) : Bytes :=
  if n = 0 then [48] else ((Nat.digits 10 n).map (fun d => d + 48)).reverse

/-- Numeric value of a list of ASCII decimal digit bytes. -/
def decDigitsVal (l : Bytes) : Nat :=
  Nat.ofDigits 10 ((l.map (fun b => b - 48)).reverse)

/-- Parse a nonempty all-digit byte string (the digit part of Rust's
`str::parse` for integers). -/
def parseDec (l : Bytes) : Option Nat :=
  if l ≠ [] ∧ ∀ b ∈ l, 48 ≤ b ∧ b ≤ 57 then some (decDigitsVal l) else none

/-- Rust `str::parse` for unsigned integers: an optional leading `+`,
then decimal digits. -/
def parseU : Bytes → Option Nat
  | [] => none
  | c :: rest => if c = 43 then parseDec rest else parseDec (c :: rest)

/-- Rust `str::parse` for signed integers: an optional sign, then
decimal digits. -/
def parseI : Bytes → Option Int
  | [] => none
  | c :: rest =>
    if c = 43 then (parseDec rest).map (fun v : Nat => (v : Int))
    else if c = 45 then (parseDec rest).map (fun v : Nat => -(v : Int))
    else (parseDec (c :: rest)).map (fun v : Nat => (v : Int))

/-- The capability set of the `Key` trait (src/key.rs lines 3-8): an
ordered byte encoding and a display string encoding, with their
decoders. -/
structure KeyCodec (K : Type) where
  as_bytes : K → Bytes
  to_key_string : K → Bytes
  from_bytes : Bytes → Except UniError K
  from_key_string : Bytes → Except UniError K

/-- `impl Key for String` (src/key.rs lines 9-25): a Rust `String` is
its UTF-8 byte vector, so `as_bytes` (`into_bytes`) and
`to_key_string` are the identity, `from_bytes` is `String::from_utf8`
(fails with `KeyTypeMismatch` on invalid UTF-8) and `from_key_string`
always succeeds. -/
def stringKey : KeyCodec Bytes where
  as_bytes s := s
  to_key_string s := s
  from_bytes bs := if validUtf8 bs then .ok bs else .error .keyTypeMismatch
  from_key_string s := .ok s

/-- The `num_key!` instances for u8/u16/u32/u64 (src/key.rs lines
26-54), `w` being the byte width (1, 2, 4, 8): `as_bytes` is
`to_be_bytes`, `from_bytes` is `from_be_bytes` after the length check
(else `KeyTypeMismatch`), the string side is decimal `to_string` and
`str::parse` (which fails on malformed digits and on overflow). -/
def uintKey (w : Nat) : KeyCodec Nat where
  as_bytes n := beBytes w n
  to_key_string n := natToDec n
  from_bytes bs :=
    if bs.length = w then .ok (fromBeBytes bs) else .error .keyTypeMismatch
  from_key_string s :=
    match parseU s with
    | some v => if v < 256 ^ w then .ok v else .error .keyTypeMismatch
    | none => .error .keyTypeMismatch

/-- Two's-complement representative of an integer modulo `256 ^ w`
(the bit pattern of a `w`-byte signed integer). -/
def twosComp (w : Nat) (i : Int) : Nat :=
  (i % (256 : Int) ^ w).toNat

/-- The `num_key!` instances for i8/i16/i32/i64 (src/key.rs lines
26-58), `w` being the byte width: `as_bytes` is `to_be_bytes` of the
two's-complement bit pattern, `from_bytes` reinterprets `w` big-endian
bytes as a signed value, and the string side is signed decimal
`to_string` and `str::parse`. -/
def intKey (w : Nat) : KeyCodec Int where
  as_bytes i := beBytes w (twosComp w i)
  to_key_string i := if i < 0 then 45 :: natToDec i.natAbs else natToDec i.toNat
  from_bytes bs :=
    if bs.length = w then
      .ok (if fromBeBytes bs < 2 ^ (8 * w - 1) then (fromBeBytes bs : Int)
        else (fromBeBytes bs : Int) - 256 ^ w)
    else .error .keyTypeMismatch
  from_key_string s :=
    match parseI s with
    | some v =>
      if -(2 ^ (8 * w - 1) : Int) ≤ v ∧ v < 2 ^ (8 * w - 1) then .ok v
      else .error .keyTypeMismatch
    | none => .error .keyTypeMismatch


/-! ## Value serialization

Model of the rmp_serde value serialization (external collaborator,
spec section 6: values are "a generic structured serialization" of V).
It is modelled as an injective length-prefixed byte encoding for
String values and a one-byte encoding for the unit value. -/

/-- Serialized form of a String value. -/
def rmpStrEnc (s : Bytes) : Bytes :=
  s.length :: s

/-- Deserializer for String values: accepts exactly the encodings of
valid UTF-8 strings (rmp_serde validates UTF-8 when decoding a Rust
String). -/
def rmpStrDec : Bytes → Option Bytes
  | [] => none
  | l :: rest => if rest.length = l ∧ validUtf8 rest = true then some rest else none

/-- Serialized form of the unit value `()`. -/
def rmpUnitEnc : Bytes :=
  [192]

/-- Deserializer for the unit value. -/
def rmpUnitDec (bs : Bytes) : Option Unit :=
  if bs = [192] then some () else none

/-- A value serialization strategy for a value kind V (the `Value`
trait of src/lib.rs, i.e. Serialize + DeserializeOwned through
rmp_serde). -/
structure ValueCodec (V : Type) where
  enc : V → Bytes
  dec : Bytes → Option V

/-- String values. -/
def strValue : ValueCodec Bytes :=
  ⟨rmpStrEnc, rmpStrDec⟩

/-- Unit values (the value type of index forward tables). -/
def unitValue : ValueCodec Unit :=
  ⟨fun _ => rmpUnitEnc, rmpUnitDec⟩

/-! ## Store model and table open

The store is the set of named partitions of the keyspace; opening a
typed table checks type compatibility against the first stored pair
(src/native.rs, `create_table`). -/

/-- The partitions of a store's keyspace, by partition name. -/
abbrev StoreState := List (Bytes × EngineTable)

/-- Partition lookup by name. -/
def storeGet : StoreState → Bytes → Option EngineTable
  | [], _ => none
  | (n', t) :: rest, n => if n = n' then some t else storeGet rest n

/-- Replace a partition's contents (or add the partition). -/
def storeSet : StoreState → Bytes → EngineTable → StoreState
  | [], n, t => [(n, t)]
  | (n', t') :: rest, n, t =>
    if n = n' then (n, t) :: rest else (n', t') :: storeSet rest n t

/-- `handle_create_table` (src/native.rs lines 316-324): opens the
named partition, creating it when missing, and reports whether it was
newly created. -/
def createTableRaw (s : StoreState) (n : Bytes) : StoreState × Bool :=
  match storeGet s n with
  | some _ => (s, false)
  | none => (storeSet s n [], true)

/-- Shallow embedding of the typed `create_table`
(src/native.rs lines 344-394), abstracted over the two decoders of
the target types: `decK b` holds when `K::from_bytes(b)` succeeds and
`decV b` when `rmp_serde::from_slice::<V>(b)` succeeds.  Opens or
creates the partition; when it is new or empty no check runs.
Otherwise the first stored key/value pair is decoded: on a key-side
failure with `replace_if_incompatible` unset the open fails with
KeyTypeMismatch, on a value-side failure with the flag unset it fails
with ValueTypeMismatch, and with the flag set the partition is
deleted and recreated empty.  Returns the outcome together with the
resulting store state. -/
def create_table (s : StoreState) (n : Bytes) (decK decV : Bytes → Bool)
    (replaceIfIncompatible : Bool) : Except UniError Unit × StoreState :=
  let p := createTableRaw s n
  let tbl := (storeGet p.1 n).getD []
  let empty := p.2 || tblIsEmpty tbl
  if p.2 || empty then (.ok (), p.1)
  else
    match tblFirstKv tbl with
    | none => (.ok (), p.1)
    | some (kb, vb) =>
      if !decK kb && !replaceIfIncompatible then (.error .keyTypeMismatch, p.1)
      else if !decV vb && !replaceIfIncompatible then (.error .valueTypeMismatch, p.1)
      else if !decK kb || !decV vb then (.ok (), storeSet p.1 n [])
      else (.ok (), p.1)

/-! ## Worker dispatch

The single-writer worker (src/native.rs lines 223-308) owns the
engine handle; `Database` methods submit `Action` values over the
bounded mpsc channel and await a oneshot reply. -/

/-- The typed table operations of the native implementation. -/
inductive TableOp where
  | createTableOp
  | insertOp
  | getOp
  | containsOp
  | removeOp
  | lenOp
  | isEmptyOp
  | getPrefixOp
  deriving DecidableEq, Repr

/-- Whether an operation's body performs its engine work by sending
an `Action` through the store worker's channel (`Database`,
src/native.rs lines 43-136, callers at lines 344-453).  Every
operation builds an `Action` and awaits the worker's reply, except
`get_prefix` (lines 455-475), which — marked `TODO: use worker
thread` in the source — clones the partition handle and runs the
fjall prefix iteration directly on the calling task. -/
def sendsToWorker : TableOp → Bool
  | .createTableOp => true
  | .insertOp => true
  | .getOp => true
  | .containsOp => true
  | .removeOp => true
  | .lenOp => true
  | .isEmptyOp => true
  | .getPrefixOp => false

/-! ## Typed table operations

The typed front-end (src/native.rs lines 396-475): keys are encoded
with `as_bytes`, values serialized, byte work delegated to the
engine. -/

/-- `insert` (src/native.rs lines 396-409): overwrites any existing
entry for the key. -/
def uniInsert {K V : Type} (kc : KeyCodec K) (vc : ValueCodec V)
    (t : EngineTable) (k : K) (v : V) : EngineTable :=
  tblInsert t (kc.as_bytes k) (vc.enc v)

/-- `get` (src/native.rs lines 420-433): point lookup on the encoded
key; a stored value that no longer deserializes to V is an RmpDecode
error, an absent key is `ok none`. -/
def uniGet {K V : Type} (kc : KeyCodec K) (vc : ValueCodec V)
    (t : EngineTable) (k : K) : Except UniError (Option V) :=
  match tblGet t (kc.as_bytes k) with
  | none => .ok none
  | some vb =>
    match vc.dec vb with
    | some v => .ok (some v)
    | none => .error .nativeDecode

/-- `remove` (src/native.rs lines 435-441). -/
def uniRemove {K : Type} (kc : KeyCodec K) (t : EngineTable) (k : K) : EngineTable :=
  tblRemove t (kc.as_bytes k)

/-- The decode loop of `get_prefix` (src/native.rs lines 465-473):
each raw entry's key is decoded with `K::from_bytes` and its value
deserialized; the first failure aborts the whole call. -/
def decodeEntries {K V : Type} (kc : KeyCodec K) (vc : ValueCodec V) :
    List (Bytes × Bytes) → Except UniError (List (K × V))
  | [] => .ok []
  | (kb, vb) :: rest =>
    match kc.from_bytes kb with
    | .error e => .error e
    | .ok k =>
      match vc.dec vb with
      | none => .error .nativeDecode
      | some v =>
        match decodeEntries kc vc rest with
        | .error e => .error e
        | .ok l => .ok ((k, v) :: l)

/-- `get_prefix` (src/native.rs lines 455-475): iterate the entries
whose key starts with the encoded prefix, in ascending byte order,
decoding each. -/
def uniGetPfx {K V : Type} (kc : KeyCodec K) (vc : ValueCodec V)
    (t : EngineTable) (p : K) : Except UniError (List (K × V)) :=
  decodeEntries kc vc (prefixScan t (kc.as_bytes p))

/-- Well-typedness of a partition for a (K, V) pair: every stored
entry decodes, and the key decodes back to a key that re-encodes to
the stored bytes. -/
def tblWellTyped {K V : Type} (kc : KeyCodec K) (vc : ValueCodec V)
    (t : EngineTable) : Prop :=
  ∀ e ∈ t, ∃ k v, kc.from_bytes e.1 = .ok k ∧ kc.as_bytes k = e.1 ∧ vc.dec e.2 = some v


/-- Whether an `Except` computation succeeded. -/
def exceptOk {e a : Type} : Except e a → Bool
  | .ok _ => true
  | .error _ => false


/-! ## Secondary index

Shallow embedding of `UniIndex` (src/index.rs) at the level of the
string encodings that `insert`/`get`/`get_first` immediately reduce
their typed arguments to (`to_key_string`): the forward table is a
`UniTable<String, ()>` keyed by `value_str ++ '\\0' ++ key_str`, the
reverse table a `UniTable<String, String>` keyed by `key_str` whose
value is the current forward key for that primary key.  The primary
table join is abstracted as the primary table's `get` on the decoded
key string. -/

/-- The two partitions backing a `UniIndex`. -/
structure IdxState where
  fwd : EngineTable
  rev : EngineTable
  deriving Repr

/-- `str::split_once` at the NUL separator: the part before the first
NUL byte and the part after it, or `none` when no NUL occurs. -/
def splitOnceNul : Bytes → Option (Bytes × Bytes)
  | [] => none
  | b :: rest =>
    if b = 0 then some ([], rest)
    else
      match splitOnceNul rest with
      | some (pre, post) => some (b :: pre, post)
      | none => none

/-- `UniIndex::insert` (src/index.rs lines 51-65): look the primary
key up in the reverse table; if a forward key is recorded, delete
that forward entry; then write the new forward entry
`value_str ++ NUL ++ key_str` (value `()`) and point the reverse
entry for `key_str` at it. -/
def idxInsertStr (st : IdxState) (valueStr keyStr : Bytes) : Except UniError IdxState :=
  match uniGet stringKey strValue st.rev keyStr with
  | .error e => .error e
  | .ok existingOpt =>
    let fwd1 :=
      match existingOpt with
      | some existing => uniRemove stringKey st.fwd existing
      | none => st.fwd
    let indexKey := valueStr ++ 0 :: keyStr
    .ok ⟨uniInsert stringKey unitValue fwd1 indexKey (),
         uniInsert stringKey strValue st.rev keyStr indexKey⟩

/-- The for-loop of `UniIndex::get` (src/index.rs lines 23-31): for
each composite key of the scan, split at the separator (the source
panics when it is missing), decode the primary key string
(`K::from_key_string`, trivial for String keys), fetch from the
primary table, and keep only the keys that still resolve. -/
def idxGetLoop {V : Type} (primGet : Bytes → Except UniError (Option V)) :
    List (Bytes × Unit) → Except UniError (List (Bytes × V))
  | [] => .ok []
  | (indexKey, _) :: rest =>
    match splitOnceNul indexKey with
    | none => .error .panicSeparator
    | some (_, keyStr) =>
      match stringKey.from_key_string keyStr with
      | .error e => .error e
      | .ok key =>
        match primGet key with
        | .error e => .error e
        | .ok none => idxGetLoop primGet rest
        | .ok (some v) =>
          match idxGetLoop primGet rest with
          | .error e => .error e
          | .ok l => .ok ((key, v) :: l)

/-- `UniIndex::get` (src/index.rs lines 20-33): prefix-scan the
forward table with the index value's string encoding — no separator
appended — then run the join loop. -/
def idxGet {V : Type} (st : IdxState) (primGet : Bytes → Except UniError (Option V))
    (valueStr : Bytes) : Except UniError (List (Bytes × V)) :=
  match uniGetPfx stringKey unitValue st.fwd valueStr with
  | .error e => .error e
  | .ok entries => idxGetLoop primGet entries

/-- `UniIndex::get_first` (src/index.rs lines 35-49): same scan; if
it is empty return `none`; otherwise split and decode only the FIRST
entry and fetch it from the primary table, returning `none` when that
single key does not resolve. -/
def idxGetFirst {V : Type} (st : IdxState) (primGet : Bytes → Except UniError (Option V))
    (valueStr : Bytes) : Except UniError (Option (Bytes × V)) :=
  match uniGetPfx stringKey unitValue st.fwd valueStr with
  | .error e => .error e
  | .ok entries =>
    match entries with
    | [] => .ok none
    | (indexKey, _) :: _ =>
      match splitOnceNul indexKey with
      | none => .error .panicSeparator
      | some (_, keyStr) =>
        match stringKey.from_key_string keyStr with
        | .error e => .error e
        | .ok key =>
          match primGet key with
          | .error e => .error e
          | .ok (some v) => .ok (some (key, v))
          | .ok none => .ok none

/-- A well-formed index string: valid UTF-8 (it is a Rust String) and
free of the NUL byte used as the composite-key separator. -/
def goodStr (s : Bytes) : Prop :=
  validUtf8 s = true ∧ (0 : Nat) ∉ s

/-- Index states reachable from a freshly created (empty) index by
`insert` calls whose value and key string encodings are well-formed
index strings. -/
inductive IdxReach : IdxState → Prop where
  | empty : IdxReach ⟨[], []⟩
  | insert {st st' : IdxState} {v k : Bytes} :
      IdxReach st → goodStr v → goodStr k →
      idxInsertStr st v k = .ok st' → IdxReach st'

/-- The index invariant: both partitions sorted; every forward entry
is a separator-composite of well-formed strings with value `()`,
whose primary key's reverse entry points back at it; every reverse
entry stores the serialized composite of an existing forward entry
for its primary key. -/
def idxInv (st : IdxState) : Prop :=
  tblSorted st.fwd ∧ tblSorted st.rev ∧
  (∀ e ∈ st.fwd, ∃ v k, goodStr v ∧ goodStr k ∧ e.1 = v ++ 0 :: k ∧
    e.2 = rmpUnitEnc ∧ tblGet st.rev k = some (rmpStrEnc e.1)) ∧
  (∀ e ∈ st.rev, ∃ v, goodStr v ∧ goodStr e.1 ∧
    e.2 = rmpStrEnc (v ++ 0 :: e.1) ∧ (v ++ 0 :: e.1, rmpUnitEnc) ∈ st.fwd)

/-! ## Theorems -/

theorem lexLt_cons {a b : Nat} {as bs : Bytes} :
    lexLt (a :: as) (b :: bs) = true ↔ a < b ∨ (a = b ∧ lexLt as bs = true) := by
  simp only [lexLt]
  split
  · simp_all
  · split
    · simp_all
    · simp_all

theorem lexLt_irrefl (l : Bytes) : lexLt l l = false := by
  induction l with
  | nil => rfl
  | cons a as ih => simp [lexLt, ih]

theorem lexLt_trans {a b c : Bytes} (h1 : lexLt a b = true) (h2 : lexLt b c = true) :
    lexLt a c = true := by
  induction a generalizing b c with
  | nil =>
    cases c with
    | nil =>
      cases b with
      | nil => exact h1
      | cons y ys => simp [lexLt] at h2
    | cons z zs => simp [lexLt]
  | cons x xs ih =>
    cases b with
    | nil => simp [lexLt] at h1
    | cons y ys =>
      cases c with
      | nil => simp [lexLt] at h2
      | cons z zs =>
        rw [lexLt_cons] at h1 h2 ⊢
        rcases h1 with h1 | ⟨rfl, h1⟩
        · rcases h2 with h2 | ⟨rfl, h2⟩
          · exact Or.inl (by omega)
          · exact Or.inl h1
        · rcases h2 with h2 | ⟨rfl, h2⟩
          · exact Or.inl h2
          · exact Or.inr ⟨rfl, ih h1 h2⟩

theorem lexLt_total {a b : Bytes} (hne : a ≠ b) (h : lexLt a b = false) :
    lexLt b a = true := by
  induction a generalizing b with
  | nil =>
    cases b with
    | nil => exact absurd rfl hne
    | cons y ys => simp [lexLt] at h
  | cons x xs ih =>
    cases b with
    | nil => simp [lexLt]
    | cons y ys =>
      rw [lexLt_cons]
      by_cases hxy : x = y
      · subst hxy
        refine Or.inr ⟨rfl, ih ?_ ?_⟩
        · intro hc; exact hne (by rw [hc])
        · simp only [lexLt, if_neg (lt_irrefl x), if_pos rfl] at h
          exact h
      · simp only [lexLt, if_neg hxy] at h
        split at h
        · exact absurd h (by simp)
        · exact Or.inl (by omega)

theorem lexLt_asymm {a b : Bytes} (h : lexLt a b = true) : lexLt b a = false := by
  by_contra hc
  have hba : lexLt b a = true := by
    cases hval : lexLt b a
    · exact absurd hval hc
    · rfl
  have := lexLt_trans h hba
  rw [lexLt_irrefl] at this
  exact absurd this (by simp)

theorem tblGet_insert_self (t : EngineTable) (k v : Bytes) :
    tblGet (tblInsert t k v) k = some v := by
  induction t with
  | nil => simp [tblInsert, tblGet]
  | cons e rest ih =>
    obtain ⟨k', v'⟩ := e
    simp only [tblInsert]
    by_cases h : k = k'
    · simp [h, tblGet]
    · simp only [if_neg h]
      by_cases h2 : lexLt k k' = true
      · simp [h2, tblGet]
      · simp [h2, tblGet, if_neg h, ih]

theorem tblGet_insert_ne (t : EngineTable) (k k' v : Bytes) (h : k ≠ k') :
    tblGet (tblInsert t k' v) k = tblGet t k := by
  induction t with
  | nil => simp [tblInsert, tblGet, if_neg h]
  | cons e rest ih =>
    obtain ⟨k0, v0⟩ := e
    simp only [tblInsert]
    by_cases h1 : k' = k0
    · subst h1
      simp [tblGet, if_neg h]
    · simp only [if_neg h1]
      by_cases h2 : lexLt k' k0 = true
      · simp [h2, tblGet, if_neg h]
      · simp [h2, tblGet, ih]

theorem tblGet_remove_ne (t : EngineTable) (k k' : Bytes) (h : k ≠ k') :
    tblGet (tblRemove t k') k = tblGet t k := by
  induction t with
  | nil => simp [tblRemove]
  | cons e rest ih =>
    obtain ⟨k0, v0⟩ := e
    simp only [tblRemove]
    by_cases h1 : k' = k0
    · subst h1
      simp [tblGet, if_neg h]
    · simp [if_neg h1, tblGet, ih]

theorem tblRemove_sublist (t : EngineTable) (k : Bytes) :
    List.Sublist (tblRemove t k) t := by
  induction t with
  | nil => simp [tblRemove]
  | cons e rest ih =>
    obtain ⟨k0, v0⟩ := e
    simp only [tblRemove]
    by_cases h : k = k0
    · rw [if_pos h]
      exact List.Sublist.cons _ (List.Sublist.refl _)
    · rw [if_neg h]
      exact List.Sublist.cons₂ _ ih

theorem tblSorted_remove {t : EngineTable} (k : Bytes) (hs : tblSorted t) :
    tblSorted (tblRemove t k) :=
  List.Pairwise.sublist (tblRemove_sublist t k) hs

theorem mem_tblInsert {e : Bytes × Bytes} {t : EngineTable} {k v : Bytes}
    (h : e ∈ tblInsert t k v) : e = (k, v) ∨ e ∈ t := by
  induction t with
  | nil => simpa [tblInsert] using h
  | cons e0 rest ih =>
    obtain ⟨k0, v0⟩ := e0
    simp only [tblInsert] at h
    by_cases h1 : k = k0
    · simp only [if_pos h1, List.mem_cons] at h
      rcases h with h | h
      · exact Or.inl h
      · exact Or.inr (List.mem_cons_of_mem _ h)
    · simp only [if_neg h1] at h
      by_cases h2 : lexLt k k0 = true
      · simp only [if_pos h2, List.mem_cons] at h
        rcases h with h | h | h
        · exact Or.inl h
        · exact Or.inr (by simp [h])
        · exact Or.inr (List.mem_cons_of_mem _ h)
      · simp only [if_neg h2, List.mem_cons] at h
        rcases h with h | h
        · exact Or.inr (by simp [h])
        · rcases ih h with h | h
          · exact Or.inl h
          · exact Or.inr (List.mem_cons_of_mem _ h)

theorem tblSorted_insert {t : EngineTable} (k v : Bytes) (hs : tblSorted t) :
    tblSorted (tblInsert t k v) := by
  induction t with
  | nil => simp [tblInsert, tblSorted]
  | cons e0 rest ih =>
    obtain ⟨k0, v0⟩ := e0
    rw [tblSorted, List.pairwise_cons] at hs
    obtain ⟨hhead, hrest⟩ := hs
    simp only [tblInsert]
    by_cases h1 : k = k0
    · subst h1
      rw [if_pos rfl, tblSorted, List.pairwise_cons]
      exact ⟨hhead, hrest⟩
    · simp only [if_neg h1]
      by_cases h2 : lexLt k k0 = true
      · rw [if_pos h2, tblSorted, List.pairwise_cons]
        constructor
        · intro e he
          rcases List.mem_cons.mp he with h | h
          · subst h; exact h2
          · exact lexLt_trans h2 (hhead e h)
        · exact List.pairwise_cons.mpr ⟨hhead, hrest⟩
      · have hk0k : lexLt k0 k = true := by
          refine lexLt_total h1 ?_
          cases hval : lexLt k k0
          · rfl
          · exact absurd hval h2
        rw [if_neg h2, tblSorted, List.pairwise_cons]
        constructor
        · intro e he
          rcases mem_tblInsert he with h | h
          · subst h; exact hk0k
          · exact hhead e h
        · exact ih hrest

theorem self_mem_tblInsert (t : EngineTable) (k v : Bytes) :
    (k, v) ∈ tblInsert t k v := by
  induction t with
  | nil => simp [tblInsert]
  | cons e0 rest ih =>
    obtain ⟨k0, v0⟩ := e0
    simp only [tblInsert]
    by_cases h1 : k = k0
    · simp [if_pos h1]
    · simp only [if_neg h1]
      by_cases h2 : lexLt k k0 = true
      · simp [if_pos h2]
      · simp only [if_neg h2]
        exact List.mem_cons_of_mem _ ih

theorem mem_tblInsert_of_ne {e : Bytes × Bytes} {t : EngineTable} {k v : Bytes}
    (he : e ∈ t) (hne : e.1 ≠ k) : e ∈ tblInsert t k v := by
  induction t with
  | nil => simp at he
  | cons e0 rest ih =>
    obtain ⟨k0, v0⟩ := e0
    simp only [tblInsert]
    by_cases h1 : k = k0
    · subst h1
      rw [if_pos rfl]
      rcases List.mem_cons.mp he with h | h
      · exact absurd (by rw [h]) hne
      · exact List.mem_cons_of_mem _ h
    · simp only [if_neg h1]
      by_cases h2 : lexLt k k0 = true
      · simp only [if_pos h2]
        exact List.mem_cons_of_mem _ he
      · simp only [if_neg h2]
        rcases List.mem_cons.mp he with h | h
        · exact h ▸ List.mem_cons_self _ _
        · exact List.mem_cons_of_mem _ (ih h)

theorem mem_tblRemove {e : Bytes × Bytes} {t : EngineTable} {k : Bytes}
    (h : e ∈ tblRemove t k) : e ∈ t :=
  (tblRemove_sublist t k).mem h

theorem mem_tblRemove_of_ne {e : Bytes × Bytes} {t : EngineTable} {k : Bytes}
    (he : e ∈ t) (hne : e.1 ≠ k) : e ∈ tblRemove t k := by
  induction t with
  | nil => simp at he
  | cons e0 rest ih =>
    obtain ⟨k0, v0⟩ := e0
    simp only [tblRemove]
    by_cases h1 : k = k0
    · subst h1
      rcases List.mem_cons.mp he with h | h
      · exact absurd (by rw [h]) hne
      · simpa using h
    · simp only [if_neg h1]
      rcases List.mem_cons.mp he with h | h
      · exact h ▸ List.mem_cons_self _ _
      · exact List.mem_cons_of_mem _ (ih h)

theorem tblGet_mem {t : EngineTable} {k v : Bytes} (h : tblGet t k = some v) :
    (k, v) ∈ t := by
  induction t with
  | nil => simp [tblGet] at h
  | cons e0 rest ih =>
    obtain ⟨k0, v0⟩ := e0
    simp only [tblGet] at h
    by_cases h1 : k = k0
    · simp only [if_pos h1] at h
      subst h1
      simp only [Option.some.injEq] at h
      simp [h]
    · simp only [if_neg h1] at h
      exact List.mem_cons_of_mem _ (ih h)

theorem mem_tblGet {t : EngineTable} {k v : Bytes} (hs : tblSorted t)
    (h : (k, v) ∈ t) : tblGet t k = some v := by
  induction t with
  | nil => simp at h
  | cons e0 rest ih =>
    obtain ⟨k0, v0⟩ := e0
    rw [tblSorted, List.pairwise_cons] at hs
    rcases List.mem_cons.mp h with hm | hm
    · rw [show k = k0 from congrArg Prod.fst hm]
      simp [tblGet, show v = v0 from congrArg Prod.snd hm]
    · have hne : k ≠ k0 := by
        intro hc
        have hlt := hs.1 (k, v) hm
        simp only at hlt
        rw [hc, lexLt_irrefl] at hlt
        exact absurd hlt (by simp)
      simp only [tblGet, if_neg hne]
      exact ih hs.2 hm

theorem tblGet_remove_self (k : Bytes) :
    ∀ {t : EngineTable}, tblSorted t → tblGet (tblRemove t k) k = none := by
  intro t
  induction t with
  | nil => intro _; simp [tblRemove, tblGet]
  | cons e0 rest ih =>
    intro hs
    obtain ⟨k0, v0⟩ := e0
    rw [tblSorted, List.pairwise_cons] at hs
    simp only [tblRemove]
    by_cases h1 : k = k0
    · rw [if_pos h1]
      subst h1
      cases hval : tblGet rest k with
      | none => rfl
      | some v =>
        exfalso
        have := hs.1 (k, v) (tblGet_mem hval)
        simp only at this
        rw [lexLt_irrefl] at this
        exact absurd this (by simp)
    · rw [if_neg h1]
      simp only [tblGet, if_neg h1]
      exact ih hs.2

theorem validUtf8_cons_ascii {x : Nat} (rest : Bytes) {lo hi : Nat}
    (hL : utf8Lead x = some (0, lo, hi)) :
    validUtf8 (x :: rest) = validUtf8 rest := by
  simp [validUtf8, hL]

theorem validUtf8_cons_two {x : Nat} {lo hi : Nat} (c1 : Nat) (rest1 : Bytes)
    (hL : utf8Lead x = some (1, lo, hi)) :
    validUtf8 (x :: c1 :: rest1) = ((lo ≤ c1 && c1 ≤ hi) && validUtf8 rest1) := by
  simp [validUtf8, hL]

theorem validUtf8_cons_three {x : Nat} {lo hi : Nat} (c1 c2 : Nat) (rest2 : Bytes)
    (hL : utf8Lead x = some (2, lo, hi)) :
    validUtf8 (x :: c1 :: c2 :: rest2) =
      ((lo ≤ c1 && c1 ≤ hi) && utf8Cont c2 && validUtf8 rest2) := by
  simp [validUtf8, hL]

theorem validUtf8_cons_four {x : Nat} {lo hi : Nat} (c1 c2 c3 : Nat) (rest3 : Bytes)
    (hL : utf8Lead x = some (3, lo, hi)) :
    validUtf8 (x :: c1 :: c2 :: c3 :: rest3) =
      ((lo ≤ c1 && c1 ≤ hi) && utf8Cont c2 && utf8Cont c3 && validUtf8 rest3) := by
  simp [validUtf8, hL]

theorem validUtf8_append {b : Bytes} (hb : validUtf8 b = true) :
    ∀ a, validUtf8 a = true → validUtf8 (a ++ b) = true := by
  have main : ∀ n (a : Bytes), a.length ≤ n → validUtf8 a = true →
      validUtf8 (a ++ b) = true := by
    intro n
    induction n with
    | zero =>
      intro a hlen _
      have hnil : a = [] := List.eq_nil_of_length_eq_zero (Nat.le_zero.mp hlen)
      subst hnil
      simpa using hb
    | succ n ih =>
      intro a hlen ha
      cases a with
      | nil => simpa using hb
      | cons x rest =>
        rw [List.cons_append]
        cases hL : utf8Lead x with
        | none =>
          rw [show validUtf8 (x :: rest) = false by simp [validUtf8, hL]] at ha
          exact Bool.noConfusion ha
        | some info =>
          obtain ⟨k, lo, hi⟩ := info
          simp only [List.length_cons] at hlen
          match k with
          | 0 =>
            rw [validUtf8_cons_ascii rest hL] at ha
            rw [validUtf8_cons_ascii (rest ++ b) hL]
            exact ih rest (by omega) ha
          | 1 =>
            cases rest with
            | nil =>
              rw [show validUtf8 [x] = false by simp [validUtf8, hL]] at ha
              exact Bool.noConfusion ha
            | cons c1 rest1 =>
              simp only [List.length_cons] at hlen
              rw [validUtf8_cons_two c1 rest1 hL, Bool.and_eq_true] at ha
              rw [List.cons_append, validUtf8_cons_two c1 (rest1 ++ b) hL, Bool.and_eq_true]
              exact ⟨ha.1, ih rest1 (by omega) ha.2⟩
          | 2 =>
            cases rest with
            | nil =>
              rw [show validUtf8 [x] = false by simp [validUtf8, hL]] at ha
              exact Bool.noConfusion ha
            | cons c1 rest1 =>
              cases rest1 with
              | nil =>
                rw [show validUtf8 [x, c1] = false by simp [validUtf8, hL]] at ha
                exact Bool.noConfusion ha
              | cons c2 rest2 =>
                simp only [List.length_cons] at hlen
                rw [validUtf8_cons_three c1 c2 rest2 hL, Bool.and_eq_true] at ha
                rw [List.cons_append, List.cons_append,
                  validUtf8_cons_three c1 c2 (rest2 ++ b) hL, Bool.and_eq_true]
                exact ⟨ha.1, ih rest2 (by omega) ha.2⟩
          | 3 =>
            cases rest with
            | nil =>
              rw [show validUtf8 [x] = false by simp [validUtf8, hL]] at ha
              exact Bool.noConfusion ha
            | cons c1 rest1 =>
              cases rest1 with
              | nil =>
                rw [show validUtf8 [x, c1] = false by simp [validUtf8, hL]] at ha
                exact Bool.noConfusion ha
              | cons c2 rest2 =>
                cases rest2 with
                | nil =>
                  rw [show validUtf8 [x, c1, c2] = false by simp [validUtf8, hL]] at ha
                  exact Bool.noConfusion ha
                | cons c3 rest3 =>
                  simp only [List.length_cons] at hlen
                  rw [validUtf8_cons_four c1 c2 c3 rest3 hL, Bool.and_eq_true] at ha
                  rw [List.cons_append, List.cons_append, List.cons_append,
                    validUtf8_cons_four c1 c2 c3 (rest3 ++ b) hL, Bool.and_eq_true]
                  exact ⟨ha.1, ih rest3 (by omega) ha.2⟩
          | m + 4 =>
            rw [show validUtf8 (x :: rest) = false by simp [validUtf8, hL]] at ha
            exact Bool.noConfusion ha
  intro a ha
  exact main a.length a (Nat.le_refl _) ha

theorem beBytes_length (w n : Nat) : (beBytes w n).length = w := by
  induction w generalizing n with
  | zero => rfl
  | succ w ih => simp [beBytes, ih]

theorem foldl_beBytes (w : Nat) : ∀ n acc, n < 256 ^ w →
    List.foldl (fun acc b => acc * 256 + b) acc (beBytes w n) = acc * 256 ^ w + n := by
  induction w with
  | zero =>
    intro n acc h
    have : n = 0 := by omega
    simp [beBytes, this]
  | succ w ih =>
    intro n acc _
    have hdm := Nat.div_add_mod n (256 ^ w)
    have hmod : n % 256 ^ w < 256 ^ w := Nat.mod_lt _ (by positivity)
    simp only [beBytes, List.foldl_cons]
    rw [ih _ _ hmod]
    have hpow : (256 : Nat) ^ (w + 1) = 256 ^ w * 256 := by ring
    calc (acc * 256 + n / 256 ^ w) * 256 ^ w + n % 256 ^ w
        = acc * (256 ^ w * 256) + (256 ^ w * (n / 256 ^ w) + n % 256 ^ w) := by ring
      _ = acc * 256 ^ (w + 1) + n := by rw [hdm, hpow]

theorem fromBe_beBytes (w n : Nat) (h : n < 256 ^ w) :
    fromBeBytes (beBytes w n) = n := by
  unfold fromBeBytes
  rw [foldl_beBytes w n 0 h]
  ring

theorem beBytes_lexLt (w : Nat) : ∀ a b, b < 256 ^ w → a < b →
    lexLt (beBytes w a) (beBytes w b) = true := by
  induction w with
  | zero => intro a b hb hab; omega
  | succ w ih =>
    intro a b hb hab
    have hdle : a / 256 ^ w ≤ b / 256 ^ w := Nat.div_le_div_right (Nat.le_of_lt hab)
    simp only [beBytes]
    rw [lexLt_cons]
    rcases Nat.lt_or_ge (a / 256 ^ w) (b / 256 ^ w) with hlt | hge
    · exact Or.inl hlt
    · have hdeq : a / 256 ^ w = b / 256 ^ w := by omega
      refine Or.inr ⟨hdeq, ih _ _ (Nat.mod_lt _ (by positivity)) ?_⟩
      have hda := Nat.div_add_mod a (256 ^ w)
      have hdb := Nat.div_add_mod b (256 ^ w)
      rw [hdeq] at hda
      omega

theorem decDigitsVal_natToDec {n : Nat} (h : n ≠ 0) : decDigitsVal (natToDec n) = n := by
  unfold natToDec decDigitsVal
  rw [if_neg h, List.map_reverse, List.reverse_reverse, List.map_map]
  have hid : ((fun b => b - 48) ∘ fun d => d + 48) = id := by
    funext d
    simp
  rw [hid, List.map_id, Nat.ofDigits_digits]

theorem natToDec_mem {n b : Nat} (hb : b ∈ natToDec n) : 48 ≤ b ∧ b ≤ 57 := by
  unfold natToDec at hb
  by_cases h : n = 0
  · rw [if_pos h] at hb
    simp at hb
    omega
  · rw [if_neg h, List.mem_reverse, List.mem_map] at hb
    obtain ⟨d, hd, rfl⟩ := hb
    have := Nat.digits_lt_base (by norm_num) hd
    omega

theorem natToDec_ne_nil (n : Nat) : natToDec n ≠ [] := by
  unfold natToDec
  by_cases h : n = 0
  · simp [h]
  · rw [if_neg h]
    simp [Nat.digits_ne_nil_iff_ne_zero.mpr h]

theorem parseDec_natToDec (n : Nat) : parseDec (natToDec n) = some n := by
  unfold parseDec
  rw [if_pos ⟨natToDec_ne_nil n, fun b hb => natToDec_mem hb⟩]
  by_cases h : n = 0
  · subst h
    decide
  · rw [decDigitsVal_natToDec h]

theorem parseU_natToDec (n : Nat) : parseU (natToDec n) = some n := by
  cases hnd : natToDec n with
  | nil => exact absurd hnd (natToDec_ne_nil n)
  | cons c rest =>
    have hc := natToDec_mem (n := n) (b := c) (by rw [hnd]; exact List.mem_cons_self _ _)
    simp only [parseU]
    rw [if_neg (by omega), ← hnd, parseDec_natToDec]

theorem parseI_natToDec (n : Nat) : parseI (natToDec n) = some (n : Int) := by
  cases hnd : natToDec n with
  | nil => exact absurd hnd (natToDec_ne_nil n)
  | cons c rest =>
    have hc := natToDec_mem (n := n) (b := c) (by rw [hnd]; exact List.mem_cons_self _ _)
    simp only [parseI]
    rw [if_neg (by omega), if_neg (by omega), ← hnd, parseDec_natToDec]
    rfl

theorem pow256_int (w : Nat) : ((256 : Int) ^ w) = ((256 ^ w : Nat) : Int) := by
  push_cast
  ring

theorem twosComp_lt (w : Nat) (i : Int) : twosComp w i < 256 ^ w := by
  unfold twosComp
  have hpos : (0 : Int) < (256 : Int) ^ w := by positivity
  have h1 : 0 ≤ i % (256 : Int) ^ w := Int.emod_nonneg i (by omega)
  have h2 : i % (256 : Int) ^ w < (256 : Int) ^ w := Int.emod_lt_of_pos i hpos
  have hc := pow256_int w
  omega

theorem twosComp_of_nonneg {w : Nat} {i : Int} (h0 : 0 ≤ i)
    (hlt : i < (256 : Int) ^ w) : twosComp w i = i.toNat := by
  unfold twosComp
  rw [Int.emod_eq_of_lt h0 hlt]

theorem twosComp_of_neg {w : Nat} {i : Int} (hneg : i < 0)
    (hge : -((256 : Int) ^ w) ≤ i) : twosComp w i = (i + 256 ^ w).toNat := by
  unfold twosComp
  have heq : i % (256 : Int) ^ w = (i + 256 ^ w) % 256 ^ w := by
    rw [show i + (256 : Int) ^ w = i + 256 ^ w * 1 by ring, Int.add_mul_emod_self_left]
  rw [heq, Int.emod_eq_of_lt (by omega) (by omega)]

theorem stringKey_bytes_round {s : Bytes} (h : validUtf8 s = true) :
    stringKey.from_bytes (stringKey.as_bytes s) = .ok s := by
  simp [stringKey, h]

theorem stringKey_string_round (s : Bytes) :
    stringKey.from_key_string (stringKey.to_key_string s) = .ok s := rfl

theorem uintKey_bytes_round (w n : Nat) (h : n < 256 ^ w) :
    (uintKey w).from_bytes ((uintKey w).as_bytes n) = .ok n := by
  simp [uintKey, beBytes_length, fromBe_beBytes w n h]

theorem uintKey_string_round (w n : Nat) (h : n < 256 ^ w) :
    (uintKey w).from_key_string ((uintKey w).to_key_string n) = .ok n := by
  simp only [uintKey]
  rw [parseU_natToDec]
  simp [h]

theorem intKey_bytes_round {w : Nat} (hw : 1 ≤ w) {i : Int}
    (hlo : -(2 ^ (8 * w - 1) : Int) ≤ i) (hhi : i < 2 ^ (8 * w - 1)) :
    (intKey w).from_bytes ((intKey w).as_bytes i) = .ok i := by
  have hsplit : (256 : Int) ^ w = 2 ^ (8 * w - 1) * 2 := by
    rw [show (256 : Int) = 2 ^ 8 by norm_num, ← pow_mul, ← pow_succ]
    congr 1
    omega
  have hcast : ((2 ^ (8 * w - 1) : Nat) : Int) = (2 : Int) ^ (8 * w - 1) := by
    push_cast
    ring
  have hhalfpos : (0 : Int) < 2 ^ (8 * w - 1) := by positivity
  simp only [intKey]
  rw [if_pos (beBytes_length w _)]
  rw [fromBe_beBytes w _ (twosComp_lt w i)]
  by_cases h0 : 0 ≤ i
  · have hlt256 : i < (256 : Int) ^ w := by omega
    rw [twosComp_of_nonneg h0 hlt256]
    have hnat : i.toNat < 2 ^ (8 * w - 1) := by omega
    rw [if_pos hnat]
    congr 1
    omega
  · push_neg at h0
    have hge : -((256 : Int) ^ w) ≤ i := by omega
    rw [twosComp_of_neg h0 hge]
    have hN := pow256_int w
    have hnotlt : ¬ ((i + 256 ^ w).toNat < 2 ^ (8 * w - 1)) := by omega
    rw [if_neg hnotlt]
    congr 1
    omega

theorem intKey_string_round {w : Nat} {i : Int}
    (hlo : -(2 ^ (8 * w - 1) : Int) ≤ i) (hhi : i < 2 ^ (8 * w - 1)) :
    (intKey w).from_key_string ((intKey w).to_key_string i) = .ok i := by
  simp only [intKey]
  by_cases hneg : i < 0
  · rw [if_pos hneg]
    rw [show parseI (45 :: natToDec i.natAbs)
        = (parseDec (natToDec i.natAbs)).map (fun v : Nat => -(v : Int)) by
      simp [parseI]]
    rw [parseDec_natToDec]
    simp only [Option.map_some']
    have habs : -((i.natAbs : Int)) = i := by omega
    rw [habs]
    show (if -(2 ^ (8 * w - 1) : Int) ≤ i ∧ i < 2 ^ (8 * w - 1)
        then (Except.ok i : Except UniError Int)
        else Except.error UniError.keyTypeMismatch) = Except.ok i
    rw [if_pos ⟨hlo, hhi⟩]
  · push_neg at hneg
    rw [if_neg (by omega)]
    rw [parseI_natToDec]
    have htn : ((i.toNat : Nat) : Int) = i := Int.toNat_of_nonneg hneg
    rw [htn]
    show (if -(2 ^ (8 * w - 1) : Int) ≤ i ∧ i < 2 ^ (8 * w - 1)
        then (Except.ok i : Except UniError Int)
        else Except.error UniError.keyTypeMismatch) = Except.ok i
    rw [if_pos ⟨hlo, hhi⟩]

/-- Claim C7: for every supported key kind — String and the integer
kinds u8/u16/u32/u64 (widths 1, 2, 4, 8) and i8/i16/i32/i64 — and
every key `k` of that kind, both encodings round-trip:
`from_bytes (as_bytes k) = ok k` and
`from_key_string (to_key_string k) = ok k`.  A String key is a valid
UTF-8 byte vector; an unsigned `w`-byte key is a natural below
`256 ^ w`; a signed `w`-byte key is an integer in
`[-2 ^ (8 w - 1), 2 ^ (8 w - 1))`. -/
theorem c7_key_roundtrip :
    (∀ s : Bytes, validUtf8 s = true →
      stringKey.from_bytes (stringKey.as_bytes s) = .ok s ∧
      stringKey.from_key_string (stringKey.to_key_string s) = .ok s) ∧
    (∀ w n : Nat, n < 256 ^ w →
      (uintKey w).from_bytes ((uintKey w).as_bytes n) = .ok n ∧
      (uintKey w).from_key_string ((uintKey w).to_key_string n) = .ok n) ∧
    (∀ w : Nat, 1 ≤ w → ∀ i : Int,
      -(2 ^ (8 * w - 1) : Int) ≤ i → i < 2 ^ (8 * w - 1) →
      (intKey w).from_bytes ((intKey w).as_bytes i) = .ok i ∧
      (intKey w).from_key_string ((intKey w).to_key_string i) = .ok i) :=
  ⟨fun _ hs => ⟨stringKey_bytes_round hs, stringKey_string_round _⟩,
   fun w n h => ⟨uintKey_bytes_round w n h, uintKey_string_round w n h⟩,
   fun _ hw _ hlo hhi => ⟨intKey_bytes_round hw hlo hhi, intKey_string_round hlo hhi⟩⟩

/-- Witness for C7 at concrete keys: the string "ab", the u32 value
300 and the i32 value -5. -/
theorem c7_key_roundtrip_witness :
    stringKey.from_bytes (stringKey.as_bytes [97, 98]) = .ok [97, 98] ∧
    (uintKey 4).from_bytes ((uintKey 4).as_bytes 300) = .ok 300 ∧
    (uintKey 4).from_key_string ((uintKey 4).to_key_string 300) = .ok 300 ∧
    (intKey 4).from_bytes ((intKey 4).as_bytes (-5)) = .ok (-5) ∧
    (intKey 4).from_key_string ((intKey 4).to_key_string (-5)) = .ok (-5) :=
  ⟨(c7_key_roundtrip.1 [97, 98] (by decide)).1,
   (c7_key_roundtrip.2.1 4 300 (by norm_num)).1,
   (c7_key_roundtrip.2.1 4 300 (by norm_num)).2,
   (c7_key_roundtrip.2.2 4 (by norm_num) (-5) (by norm_num) (by norm_num)).1,
   (c7_key_roundtrip.2.2 4 (by norm_num) (-5) (by norm_num) (by norm_num)).2⟩

/-- Claim C8: for every unsigned fixed-width integer key kind (byte
width `w`, covering u8/u16/u32/u64) and all in-range values `a < b`,
the big-endian `as_bytes` encodings satisfy
`as_bytes a < as_bytes b` in byte-lexicographic order. -/
theorem c8_unsigned_order (w a b : Nat) (hb : b < 256 ^ w) (hab : a < b) :
    lexLt ((uintKey w).as_bytes a) ((uintKey w).as_bytes b) = true :=
  beBytes_lexLt w a b hb hab

/-- Witness for C8 at width 4 (u32) with a = 1, b = 2. -/
theorem c8_unsigned_order_witness :
    lexLt ((uintKey 4).as_bytes 1) ((uintKey 4).as_bytes 2) = true :=
  c8_unsigned_order 4 1 2 (by norm_num) (by norm_num)

/-- Claim C9 (implicit): for the signed integer kinds, `as_bytes` is
the raw big-endian two's-complement bit pattern, so byte order does
not match numeric order: for every in-range negative `a` and
non-negative `b` of the same width, the encoding of `b` is
byte-lexicographically smaller than the encoding of `a` — negative
keys sort after all non-negative keys in any byte-ordered scan. -/
theorem c9_signed_order :
    (∀ (w : Nat) (i : Int),
      (intKey w).as_bytes i = beBytes w ((i % (256 : Int) ^ w).toNat)) ∧
    (∀ w : Nat, 1 ≤ w → ∀ a b : Int,
      -(2 ^ (8 * w - 1) : Int) ≤ a → a < 0 → 0 ≤ b → b < 2 ^ (8 * w - 1) →
      lexLt ((intKey w).as_bytes b) ((intKey w).as_bytes a) = true) := by
  constructor
  · intro w i
    rfl
  · intro w hw a b hlo hneg hb0 hbhi
    have hsplit : (256 : Int) ^ w = 2 ^ (8 * w - 1) * 2 := by
      rw [show (256 : Int) = 2 ^ 8 by norm_num, ← pow_mul, ← pow_succ]
      congr 1
      omega
    have hN := pow256_int w
    have hcast : ((2 ^ (8 * w - 1) : Nat) : Int) = (2 : Int) ^ (8 * w - 1) := by
      push_cast
      ring
    simp only [intKey]
    apply beBytes_lexLt w _ _ (twosComp_lt w a)
    rw [twosComp_of_nonneg hb0 (by omega), twosComp_of_neg hneg (by omega)]
    omega

/-- Witness for C9 at width 1 (i8) with a = -1, b = 0: the encoding
of -1 is [255], the encoding of 0 is [0]. -/
theorem c9_signed_order_witness :
    lexLt ((intKey 1).as_bytes 0) ((intKey 1).as_bytes (-1)) = true :=
  c9_signed_order.2 1 (by norm_num) (-1) 0 (by norm_num) (by norm_num) (by norm_num)
    (by norm_num)

theorem storeGet_set_self (s : StoreState) (n : Bytes) (t : EngineTable) :
    storeGet (storeSet s n t) n = some t := by
  induction s with
  | nil => simp [storeSet, storeGet]
  | cons e rest ih =>
    obtain ⟨n0, t0⟩ := e
    simp only [storeSet]
    by_cases h : n = n0
    · simp [h, storeGet]
    · simp [if_neg h, storeGet, ih]

/-- Claim C1 (amended): opening a typed table over a non-empty
partition reads the first stored key/value pair and decodes it as K
and V.  If the key side fails to decode and `replace_if_incompatible`
is false, the open fails with KeyTypeMismatch and the partition is
left unchanged; if the key side decodes but the value side fails and
the flag is false, it fails with ValueTypeMismatch and the partition
is left unchanged; if either side fails and the flag is true, the
partition is deleted and recreated empty under the same name.
(The claim's concrete u32-to-String consequence is corrected by
`c1_counterexample`: it only holds when the first key's bytes are not
valid UTF-8.) -/
theorem c1_open_type_check {s : StoreState} {n : Bytes} {t : EngineTable} {kb vb : Bytes}
    (decK decV : Bytes → Bool)
    (hget : storeGet s n = some t) (hfirst : tblFirstKv t = some (kb, vb)) :
    (decK kb = false → create_table s n decK decV false = (.error .keyTypeMismatch, s)) ∧
    (decK kb = true → decV vb = false →
      create_table s n decK decV false = (.error .valueTypeMismatch, s)) ∧
    ((decK kb = false ∨ decV vb = false) →
      create_table s n decK decV true = (.ok (), storeSet s n []) ∧
      storeGet (storeSet s n []) n = some []) := by
  have htempty : tblIsEmpty t = false := by
    cases t with
    | nil => simp [tblFirstKv] at hfirst
    | cons e rest => rfl
  have hraw : createTableRaw s n = (s, false) := by simp [createTableRaw, hget]
  refine ⟨fun hk => ?_, fun hk hv => ?_, fun hkv => ?_⟩
  · simp [create_table, hraw, hget, htempty, hfirst, hk]
  · simp [create_table, hraw, hget, htempty, hfirst, hk, hv]
  · refine ⟨?_, storeGet_set_self s n []⟩
    rcases hkv with hk | hv
    · simp [create_table, hraw, hget, htempty, hfirst, hk]
    · simp [create_table, hraw, hget, htempty, hfirst, hv]

/-- Witness for C1 (amended) at a concrete store: a partition named
"t" whose first key is the u32 0x80000000 (big-endian bytes
[128, 0, 0, 0], not valid UTF-8) and whose first value is the
serialized string "x"; reopening with K = String and
`replace_if_incompatible = false` fails with KeyTypeMismatch and
leaves the store unchanged. -/
theorem c1_open_type_check_witness :
    create_table [([116], [([128, 0, 0, 0], [1, 120])])] [116]
      (fun bs => exceptOk (stringKey.from_bytes bs))
      (fun bs => (rmpStrDec bs).isSome) false
      = (.error .keyTypeMismatch, [([116], [([128, 0, 0, 0], [1, 120])])]) :=
  (@c1_open_type_check [([116], [([128, 0, 0, 0], [1, 120])])] [116]
    [([128, 0, 0, 0], [1, 120])] [128, 0, 0, 0] [1, 120]
    (fun bs => exceptOk (stringKey.from_bytes bs))
    (fun bs => (rmpStrDec bs).isSome) (by decide) (by decide)).1 (by decide)

/-- Claim C1 counterexample: the claim's concrete consequence — "a
table written with key type u32 and reopened with key type String and
replace_if_incompatible = false fails with KeyTypeMismatch" — is
false.  A table whose one row was written under the u32 key 1 stores
the key bytes [0, 0, 0, 1]; those bytes are valid UTF-8, so
`String::from_bytes` succeeds, the value (a serialized string)
decodes as well, and the open succeeds with the partition intact,
returning no error at all. -/
theorem c1_counterexample :
    create_table [([116], [((uintKey 4).as_bytes 1, rmpStrEnc [120])])] [116]
      (fun bs => exceptOk (stringKey.from_bytes bs))
      (fun bs => (rmpStrDec bs).isSome) false
      = (.ok (), [([116], [([0, 0, 0, 1], [1, 120])])]) := by
  rfl

/-- Claim C2 evaluation: the claim states that every Table operation
on a Store — including `get_prefix` — is executed by the Store's
single worker.  In the code, every operation submits an `Action` to
the worker's channel except `get_prefix`, which runs the fjall prefix
iteration directly on the calling task (src/native.rs lines 455-475,
marked `TODO: use worker thread`), so a `get_prefix` can execute
concurrently with an engine call made by the worker. -/
theorem c2_worker_dispatch :
    sendsToWorker .getPrefixOp = false ∧
    (sendsToWorker .createTableOp = true ∧ sendsToWorker .insertOp = true ∧
      sendsToWorker .getOp = true ∧ sendsToWorker .containsOp = true ∧
      sendsToWorker .removeOp = true ∧ sendsToWorker .lenOp = true ∧
      sendsToWorker .isEmptyOp = true) := by
  decide

/-- Claim C5: `get` returns the value of the most recent insert under
a key — inserting `v` then reading the key yields `v`; a second
insert under the same key overwrites (last write wins, no merge); a
`get` on the empty table, or on a key whose encoding was never
inserted, returns `ok none`, not an error. -/
theorem c5_insert_get {K V : Type} (kc : KeyCodec K) (vc : ValueCodec V) :
    (∀ (t : EngineTable) (k : K) (v : V), vc.dec (vc.enc v) = some v →
      uniGet kc vc (uniInsert kc vc t k v) k = .ok (some v)) ∧
    (∀ (t : EngineTable) (k : K) (v1 v2 : V), vc.dec (vc.enc v2) = some v2 →
      uniGet kc vc (uniInsert kc vc (uniInsert kc vc t k v1) k v2) k = .ok (some v2)) ∧
    (∀ k : K, uniGet kc vc ([] : EngineTable) k = .ok none) ∧
    (∀ (t : EngineTable) (k k' : K) (v' : V), kc.as_bytes k ≠ kc.as_bytes k' →
      uniGet kc vc (uniInsert kc vc t k' v') k = uniGet kc vc t k) := by
  refine ⟨fun t k v hdec => ?_, fun t k v1 v2 hdec => ?_, fun k => rfl,
    fun t k k' v' hne => ?_⟩
  · unfold uniGet uniInsert
    rw [tblGet_insert_self]
    simp [hdec]
  · unfold uniGet uniInsert
    rw [tblGet_insert_self]
    simp [hdec]
  · unfold uniGet uniInsert
    rw [tblGet_insert_ne _ _ _ _ hne]

/-- Witness for C5 over a string-keyed, string-valued table: insert
"x" under "a" and read it back; overwrite "w" with "x" under "a";
read the never-inserted "b" from the empty table and across an
insert under the different key "c". -/
theorem c5_insert_get_witness :
    uniGet stringKey strValue (uniInsert stringKey strValue [] [97] [120]) [97]
      = .ok (some [120]) ∧
    uniGet stringKey strValue
      (uniInsert stringKey strValue (uniInsert stringKey strValue [] [97] [119]) [97] [120])
      [97] = .ok (some [120]) ∧
    uniGet stringKey strValue ([] : EngineTable) [98] = .ok none ∧
    uniGet stringKey strValue (uniInsert stringKey strValue [] [99] [120]) [98]
      = uniGet stringKey strValue [] [98] :=
  ⟨(c5_insert_get stringKey strValue).1 [] [97] [120] rfl,
   (c5_insert_get stringKey strValue).2.1 [] [97] [119] [120] rfl,
   (c5_insert_get stringKey strValue).2.2.1 [98],
   (c5_insert_get stringKey strValue).2.2.2 [] [98] [99] [120] (by decide)⟩

theorem forall2_mem_left {A B : Type} {R : A → B → Prop} :
    ∀ {l : List A} {es : List B}, List.Forall₂ R l es → ∀ a ∈ l, ∃ e ∈ es, R a e := by
  intro l es h
  induction h with
  | nil => intro a ha; simp at ha
  | cons hae htail ih =>
    intro x hx
    rcases List.mem_cons.mp hx with rfl | hx
    · exact ⟨_, List.mem_cons_self _ _, hae⟩
    · obtain ⟨e, he, hr⟩ := ih x hx
      exact ⟨e, List.mem_cons_of_mem _ he, hr⟩

theorem pairwise_of_forall2 {A B : Type} {R : A → B → Prop} {S : B → B → Prop}
    {S2 : A → A → Prop} :
    ∀ {l : List A} {es : List B}, List.Forall₂ R l es → List.Pairwise S es →
    (∀ a e a2 e2, R a e → R a2 e2 → S e e2 → S2 a a2) → List.Pairwise S2 l := by
  intro l es h
  induction h with
  | nil => intro _ _; exact .nil
  | cons hae htail ih =>
    intro hp compat
    rw [List.pairwise_cons] at hp
    refine List.pairwise_cons.mpr ⟨?_, ih hp.2 compat⟩
    intro a2 ha2
    obtain ⟨e2, he2, hr2⟩ := forall2_mem_left htail a2 ha2
    exact compat _ _ _ _ hae hr2 (hp.1 e2 he2)

theorem decodeEntries_ok {K V : Type} (kc : KeyCodec K) (vc : ValueCodec V) :
    ∀ es : List (Bytes × Bytes),
    (∀ e ∈ es, ∃ k v, kc.from_bytes e.1 = .ok k ∧ kc.as_bytes k = e.1 ∧
      vc.dec e.2 = some v) →
    ∃ l, decodeEntries kc vc es = .ok l ∧
      List.Forall₂ (fun (kv : K × V) (e : Bytes × Bytes) =>
        kc.as_bytes kv.1 = e.1 ∧ vc.dec e.2 = some kv.2) l es := by
  intro es
  induction es with
  | nil => intro _; exact ⟨[], rfl, .nil⟩
  | cons e rest ih =>
    obtain ⟨kb, vb⟩ := e
    intro hwt
    obtain ⟨k, v, hk, hkb, hv⟩ := hwt (kb, vb) (List.mem_cons_self _ _)
    obtain ⟨l, hl, hf⟩ := ih (fun e2 he2 => hwt e2 (List.mem_cons_of_mem _ he2))
    refine ⟨(k, v) :: l, ?_, .cons ⟨hkb, hv⟩ hf⟩
    simp only [decodeEntries, hk, hv, hl]

/-- Claim C6: for every well-typed sorted table state and prefix `p`,
`get_prefix p` succeeds and returns exactly the entries whose
ordered-byte key encoding starts with `p`'s ordered-byte encoding —
item by item the prefix-filtered entry list of the partition — in
ascending byte order of their encoded keys. -/
theorem c6_get_pfx_exact {K V : Type} (kc : KeyCodec K) (vc : ValueCodec V)
    {t : EngineTable} (p : K) (hs : tblSorted t) (hw : tblWellTyped kc vc t) :
    ∃ l, uniGetPfx kc vc t p = .ok l ∧
      List.Forall₂ (fun (kv : K × V) (e : Bytes × Bytes) =>
        kc.as_bytes kv.1 = e.1 ∧ vc.dec e.2 = some kv.2) l
        (prefixScan t (kc.as_bytes p)) ∧
      (∀ kv ∈ l, (kc.as_bytes p).isPrefixOf (kc.as_bytes kv.1) = true) ∧
      List.Pairwise (fun a b => lexLt (kc.as_bytes a.1) (kc.as_bytes b.1) = true) l := by
  obtain ⟨l, hl, hf⟩ := decodeEntries_ok kc vc (prefixScan t (kc.as_bytes p))
    (fun e he => hw e (List.mem_of_mem_filter he))
  refine ⟨l, hl, hf, ?_, ?_⟩
  · intro kv hkv
    obtain ⟨e, he, hr⟩ := forall2_mem_left hf kv hkv
    have hpe : (kc.as_bytes p).isPrefixOf e.1 = true := by
      simpa using List.of_mem_filter he
    rw [hr.1]
    exact hpe
  · have hps : List.Pairwise (fun a b : Bytes × Bytes => lexLt a.1 b.1 = true)
        (prefixScan t (kc.as_bytes p)) :=
      List.Pairwise.sublist (List.filter_sublist _) hs
    exact pairwise_of_forall2 hf hps (fun a e a2 e2 h1 h2 hS => by rw [h1.1, h2.1]; exact hS)

/-- Witness for C6 at the spec's own example: a string table holding
"abc", "abd", "xyz"; the scan with prefix "ab". -/
theorem c6_get_pfx_exact_witness :
    ∃ l, uniGetPfx stringKey strValue
        [([97, 98, 99], [1, 48]), ([97, 98, 100], [1, 49]), ([120, 121, 122], [1, 50])]
        [97, 98] = .ok l ∧
      List.Forall₂ (fun (kv : Bytes × Bytes) (e : Bytes × Bytes) =>
        stringKey.as_bytes kv.1 = e.1 ∧ strValue.dec e.2 = some kv.2) l
        (prefixScan
          [([97, 98, 99], [1, 48]), ([97, 98, 100], [1, 49]), ([120, 121, 122], [1, 50])]
          (stringKey.as_bytes [97, 98])) ∧
      (∀ kv ∈ l,
        (stringKey.as_bytes [97, 98]).isPrefixOf (stringKey.as_bytes kv.1) = true) ∧
      List.Pairwise
        (fun a b => lexLt (stringKey.as_bytes a.1) (stringKey.as_bytes b.1) = true) l :=
  c6_get_pfx_exact stringKey strValue [97, 98] (by unfold tblSorted; decide) (by
    intro e he
    simp only [List.mem_cons, List.not_mem_nil, or_false] at he
    rcases he with rfl | rfl | rfl
    · exact ⟨[97, 98, 99], [48], rfl, rfl, rfl⟩
    · exact ⟨[97, 98, 100], [49], rfl, rfl, rfl⟩
    · exact ⟨[120, 121, 122], [50], rfl, rfl, rfl⟩)

theorem rmpStr_round {s : Bytes} (h : validUtf8 s = true) :
    rmpStrDec (rmpStrEnc s) = some s := by
  simp [rmpStrEnc, rmpStrDec, h]

theorem validUtf8_nulCons {k : Bytes} (hk : validUtf8 k = true) :
    validUtf8 (0 :: k) = true := by
  rw [validUtf8_cons_ascii k (show utf8Lead 0 = some (0, 0, 0) from rfl)]
  exact hk

theorem validUtf8_comp {v k : Bytes} (hv : validUtf8 v = true) (hk : validUtf8 k = true) :
    validUtf8 (v ++ 0 :: k) = true :=
  validUtf8_append (validUtf8_nulCons hk) v hv

theorem nulfree_comp_inj {v1 k1 v2 k2 : Bytes} (h1 : (0 : Nat) ∉ v1)
    (h2 : (0 : Nat) ∉ v2) (he : v1 ++ 0 :: k1 = v2 ++ 0 :: k2) : v1 = v2 ∧ k1 = k2 := by
  induction v1 generalizing v2 with
  | nil =>
    cases v2 with
    | nil => simpa using he
    | cons b v2t =>
      simp only [List.nil_append, List.cons_append, List.cons.injEq] at he
      exact absurd (by simp [← he.1]) h2
  | cons a v1t ih =>
    cases v2 with
    | nil =>
      simp only [List.cons_append, List.nil_append, List.cons.injEq] at he
      exact absurd (by simp [he.1]) h1
    | cons b v2t =>
      simp only [List.cons_append, List.cons.injEq] at he
      have hr := ih (fun hc => h1 (List.mem_cons_of_mem _ hc))
        (fun hc => h2 (List.mem_cons_of_mem _ hc)) he.2
      exact ⟨by rw [he.1, hr.1], hr.2⟩

theorem splitOnceNul_comp {v k : Bytes} (hv : (0 : Nat) ∉ v) :
    splitOnceNul (v ++ 0 :: k) = some (v, k) := by
  induction v with
  | nil => simp [splitOnceNul]
  | cons a vt ih =>
    have ha : a ≠ 0 := fun hc => hv (by simp [hc])
    simp only [List.cons_append, splitOnceNul, if_neg ha]
    rw [show vt.append (0 :: k) = vt ++ 0 :: k from rfl,
      ih (fun hc => hv (List.mem_cons_of_mem _ hc))]

theorem isPrefixOf_append_right {p v u : Bytes} (h : p.isPrefixOf v = true) :
    p.isPrefixOf (v ++ u) = true := by
  induction p generalizing v with
  | nil => simp [List.isPrefixOf]
  | cons a pt ih =>
    cases v with
    | nil => simp [List.isPrefixOf] at h
    | cons b vt =>
      simp only [List.isPrefixOf, Bool.and_eq_true, beq_iff_eq] at h ⊢
      exact ⟨h.1, ih h.2⟩

theorem nulfree_isPrefixOf_comp {p v k : Bytes} (hp : (0 : Nat) ∉ p)
    (h : p.isPrefixOf (v ++ 0 :: k) = true) : p.isPrefixOf v = true := by
  induction p generalizing v with
  | nil => simp [List.isPrefixOf]
  | cons a pt ih =>
    cases v with
    | nil =>
      simp only [List.nil_append, List.isPrefixOf, Bool.and_eq_true, beq_iff_eq] at h
      exact absurd (by simp [h.1]) hp
    | cons b vt =>
      simp only [List.cons_append, List.isPrefixOf, Bool.and_eq_true, beq_iff_eq] at h ⊢
      exact ⟨h.1, ih (fun hc => hp (List.mem_cons_of_mem _ hc)) h.2⟩

theorem mem_tblInsert_sorted {e : Bytes × Bytes} {k v : Bytes} :
    ∀ {t : EngineTable}, tblSorted t → e ∈ tblInsert t k v →
    e = (k, v) ∨ (e ∈ t ∧ e.1 ≠ k) := by
  intro t
  induction t with
  | nil =>
    intro _ he
    simp only [tblInsert, List.mem_singleton] at he
    exact Or.inl he
  | cons e0 rest ih =>
    intro hs he
    obtain ⟨k0, v0⟩ := e0
    rw [tblSorted, List.pairwise_cons] at hs
    simp only [tblInsert] at he
    by_cases h1 : k = k0
    · subst h1
      rw [if_pos rfl] at he
      rcases List.mem_cons.mp he with h | h
      · exact Or.inl h
      · refine Or.inr ⟨List.mem_cons_of_mem _ h, fun hc => ?_⟩
        have := hs.1 e h
        rw [hc, lexLt_irrefl] at this
        exact absurd this (by simp)
    · rw [if_neg h1] at he
      by_cases h2 : lexLt k k0 = true
      · rw [if_pos h2] at he
        rcases List.mem_cons.mp he with h | h
        · exact Or.inl h
        · rcases List.mem_cons.mp h with h | h
          · refine Or.inr ⟨h ▸ List.mem_cons_self _ _, fun hc => ?_⟩
            rw [h] at hc
            simp only at hc
            rw [hc] at h2
            rw [lexLt_irrefl] at h2
            exact absurd h2 (by simp)
          · refine Or.inr ⟨List.mem_cons_of_mem _ h, fun hc => ?_⟩
            have h3 := hs.1 e h
            have := lexLt_trans h2 h3
            rw [hc, lexLt_irrefl] at this
            exact absurd this (by simp)
      · rw [if_neg h2] at he
        rcases List.mem_cons.mp he with h | h
        · refine Or.inr ⟨h ▸ List.mem_cons_self _ _, fun hc => ?_⟩
          rw [h] at hc
          simp only at hc
          exact h1 hc.symm
        · rcases ih hs.2 h with h3 | h3
          · exact Or.inl h3
          · exact Or.inr ⟨List.mem_cons_of_mem _ h3.1, h3.2⟩

/-- Every reachable index state satisfies the index invariant. -/
theorem idxReach_inv : ∀ {st : IdxState}, IdxReach st → idxInv st := by
  intro st hr
  induction hr with
  | empty =>
    refine ⟨List.Pairwise.nil, List.Pairwise.nil, ?_, ?_⟩ <;>
      · intro e he
        simp at he
  | insert hr hgv hgk hins ih =>
    rename_i st0 st' v k
    obtain ⟨hsf, hsr, hfwd, hrev⟩ := ih
    obtain ⟨fwd', rev'⟩ := st'
    cases hg : tblGet st0.rev k with
    | none =>
      have hu : uniGet stringKey strValue st0.rev k = .ok none := by
        simp [uniGet, stringKey, strValue, hg]
      simp only [idxInsertStr] at hins
      rw [hu] at hins
      simp only [uniRemove, uniInsert, stringKey, unitValue, strValue,
        Except.ok.injEq, IdxState.mk.injEq] at hins
      obtain ⟨hf2, hr2⟩ := hins
      subst hf2
      subst hr2
      refine ⟨tblSorted_insert _ _ hsf, tblSorted_insert _ _ hsr, ?_, ?_⟩
      · intro e he
        rcases mem_tblInsert_sorted hsf he with rfl | ⟨hemem, hene⟩
        · exact ⟨v, k, hgv, hgk, rfl, rfl, tblGet_insert_self _ _ _⟩
        · obtain ⟨v1, k1, hg1, hg2, he1, he2, hlink⟩ := hfwd e hemem
          have hk1 : k1 ≠ k := by
            intro hc
            rw [hc, hg] at hlink
            simp at hlink
          refine ⟨v1, k1, hg1, hg2, he1, he2, ?_⟩
          rw [tblGet_insert_ne _ _ _ _ hk1]
          exact hlink
      · intro e he
        rcases mem_tblInsert_sorted hsr he with rfl | ⟨hemem, hene⟩
        · exact ⟨v, hgv, hgk, rfl, self_mem_tblInsert _ _ _⟩
        · obtain ⟨v1, hg1, hg2, he2, hm1⟩ := hrev e hemem
          refine ⟨v1, hg1, hg2, he2, ?_⟩
          refine mem_tblInsert_of_ne hm1 ?_
          intro hc
          exact hene (nulfree_comp_inj hg1.2 hgv.2 hc).2
    | some vb =>
      have hrmem := tblGet_mem hg
      obtain ⟨v0, hgv0, hgk0, hvb, hm0⟩ := hrev (k, vb) hrmem
      have hgk0' : goodStr k := hgk0
      have hvb' : vb = rmpStrEnc (v0 ++ 0 :: k) := hvb
      have hm0' : (v0 ++ 0 :: k, rmpUnitEnc) ∈ st0.fwd := hm0
      have hvdec : rmpStrDec vb = some (v0 ++ 0 :: k) := by
        rw [hvb']
        exact rmpStr_round (validUtf8_comp hgv0.1 hgk0'.1)
      have hu : uniGet stringKey strValue st0.rev k = .ok (some (v0 ++ 0 :: k)) := by
        simp [uniGet, stringKey, strValue, hg, hvdec]
      simp only [idxInsertStr] at hins
      rw [hu] at hins
      simp only [uniRemove, uniInsert, stringKey, unitValue, strValue,
        Except.ok.injEq, IdxState.mk.injEq] at hins
      obtain ⟨hf2, hr2⟩ := hins
      subst hf2
      subst hr2
      have hsf1 : tblSorted (tblRemove st0.fwd (v0 ++ 0 :: k)) := tblSorted_remove _ hsf
      refine ⟨tblSorted_insert _ _ hsf1, tblSorted_insert _ _ hsr, ?_, ?_⟩
      · intro e he
        rcases mem_tblInsert_sorted hsf1 he with rfl | ⟨hemem, hene⟩
        · exact ⟨v, k, hgv, hgk, rfl, rfl, tblGet_insert_self _ _ _⟩
        · obtain ⟨v1, k1, hg1, hg2, he1, he2, hlink⟩ := hfwd e (mem_tblRemove hemem)
          have hk1 : k1 ≠ k := by
            intro hc
            rw [hc, hg] at hlink
            have hbe : vb = rmpStrEnc e.1 := by
              injection hlink
            have henc : rmpStrEnc e.1 = rmpStrEnc (v0 ++ 0 :: k) := by
              rw [← hbe, hvb']
            have he10 : e.1 = v0 ++ 0 :: k := by
              simp only [rmpStrEnc, List.cons.injEq] at henc
              exact henc.2
            have hsome := mem_tblGet hsf1 (show (e.1, e.2) ∈ _ from hemem)
            rw [he10, tblGet_remove_self (v0 ++ 0 :: k) hsf] at hsome
            simp at hsome
          refine ⟨v1, k1, hg1, hg2, he1, he2, ?_⟩
          rw [tblGet_insert_ne _ _ _ _ hk1]
          exact hlink
      · intro e he
        rcases mem_tblInsert_sorted hsr he with rfl | ⟨hemem, hene⟩
        · exact ⟨v, hgv, hgk, rfl, self_mem_tblInsert _ _ _⟩
        · obtain ⟨v1, hg1, hg2, he2, hm1⟩ := hrev e hemem
          refine ⟨v1, hg1, hg2, he2, ?_⟩
          have hne0 : v1 ++ 0 :: e.1 ≠ v0 ++ 0 :: k := by
            intro hc
            exact hene (nulfree_comp_inj hg1.2 hgv0.2 hc).2
          have hnew : v1 ++ 0 :: e.1 ≠ v ++ 0 :: k := by
            intro hc
            exact hene (nulfree_comp_inj hg1.2 hgv.2 hc).2
          exact mem_tblInsert_of_ne (mem_tblRemove_of_ne hm1 hne0) hnew

theorem decodeEntries_stringUnit : ∀ es : List (Bytes × Bytes),
    (∀ e ∈ es, validUtf8 e.1 = true ∧ e.2 = rmpUnitEnc) →
    decodeEntries stringKey unitValue es = .ok (es.map (fun e => (e.1, ()))) := by
  intro es
  induction es with
  | nil => intro _; rfl
  | cons e rest ih =>
    obtain ⟨kb, vb⟩ := e
    intro h
    obtain ⟨hv, hu⟩ := h (kb, vb) (List.mem_cons_self _ _)
    have hv2 : validUtf8 kb = true := hv
    have hu2 : vb = rmpUnitEnc := hu
    have hfb : stringKey.from_bytes kb = .ok kb := by simp [stringKey, hv2]
    have hdec : unitValue.dec vb = some () := by simp [unitValue, rmpUnitDec, hu2, rmpUnitEnc]
    simp only [decodeEntries, hfb, hdec,
      ih (fun e2 he2 => h e2 (List.mem_cons_of_mem _ he2)), List.map_cons]

theorem uniGetPfx_fwd_ok {st : IdxState} (hinv : idxInv st) (vq : Bytes) :
    uniGetPfx stringKey unitValue st.fwd vq
      = .ok ((prefixScan st.fwd vq).map (fun e => (e.1, ()))) := by
  unfold uniGetPfx
  apply decodeEntries_stringUnit
  intro e he
  obtain ⟨v1, k1, hg1, hg2, he1, he2, _⟩ := hinv.2.2.1 e (List.mem_of_mem_filter he)
  exact ⟨by rw [he1]; exact validUtf8_comp hg1.1 hg2.1, he2⟩

theorem idxGetLoop_spec {V : Type} (primGet : Bytes → Except UniError (Option V)) :
    ∀ cs : List (Bytes × Unit),
    (∀ c ∈ cs, ∃ pre post, splitOnceNul c.1 = some (pre, post) ∧ ∃ r, primGet post = .ok r) →
    ∃ l, idxGetLoop primGet cs = .ok l ∧
      (∀ kv ∈ l, primGet kv.1 = .ok (some kv.2) ∧
        ∃ c ∈ cs, ∃ pre, splitOnceNul c.1 = some (pre, kv.1)) ∧
      (∀ c ∈ cs, ∀ pre post v2, splitOnceNul c.1 = some (pre, post) →
        primGet post = .ok (some v2) → (post, v2) ∈ l) := by
  intro cs
  induction cs with
  | nil => exact fun _ => ⟨[], rfl, by simp, by simp⟩
  | cons c rest ih =>
    intro h
    obtain ⟨pre, post, hsplit, r, hr⟩ := h c (List.mem_cons_self _ _)
    obtain ⟨l, hl, hsound, hcomp⟩ := ih (fun c2 hc2 => h c2 (List.mem_cons_of_mem _ hc2))
    obtain ⟨cb, cu⟩ := c
    have hsplit2 : splitOnceNul cb = some (pre, post) := hsplit
    cases r with
    | none =>
      refine ⟨l, ?_, ?_, ?_⟩
      · simp only [idxGetLoop, hsplit2, stringKey, hr, hl]
      · intro kv hkv
        obtain ⟨hpg2, c2, hc2, hpre2⟩ := hsound kv hkv
        exact ⟨hpg2, c2, List.mem_cons_of_mem _ hc2, hpre2⟩
      · intro c2 hc2 pre2 post2 v2 hs2 hp2
        rcases List.mem_cons.mp hc2 with rfl | hc2
        · have hs3 : splitOnceNul cb = some (pre2, post2) := hs2
          rw [hsplit2] at hs3
          have hpp := Option.some.inj hs3
          have hpost : post = post2 := congrArg Prod.snd hpp
          rw [← hpost, hr] at hp2
          simp at hp2
        · exact hcomp c2 hc2 pre2 post2 v2 hs2 hp2
    | some v =>
      refine ⟨(post, v) :: l, ?_, ?_, ?_⟩
      · simp only [idxGetLoop, hsplit2, stringKey, hr, hl]
      · intro kv hkv
        rcases List.mem_cons.mp hkv with rfl | hkv
        · exact ⟨hr, (cb, cu), List.mem_cons_self _ _, pre, hsplit2⟩
        · obtain ⟨hpg2, c2, hc2, hpre2⟩ := hsound kv hkv
          exact ⟨hpg2, c2, List.mem_cons_of_mem _ hc2, hpre2⟩
      · intro c2 hc2 pre2 post2 v2 hs2 hp2
        rcases List.mem_cons.mp hc2 with rfl | hc2
        · have hs3 : splitOnceNul cb = some (pre2, post2) := hs2
          rw [hsplit2] at hs3
          have hpp := Option.some.inj hs3
          have hpost : post = post2 := congrArg Prod.snd hpp
          rw [← hpost, hr] at hp2
          have hv2 : v = v2 := by
            have := Except.ok.inj hp2
            exact Option.some.inj this
          rw [← hpost, ← hv2]
          exact List.mem_cons_self _ _
        · exact List.mem_cons_of_mem _ (hcomp c2 hc2 pre2 post2 v2 hs2 hp2)

theorem idxGetLoop_mem_src {V : Type} {primGet : Bytes → Except UniError (Option V)} :
    ∀ {cs : List (Bytes × Unit)} {l : List (Bytes × V)}, idxGetLoop primGet cs = .ok l →
    ∀ kv ∈ l, ∃ c ∈ cs, ∃ pre, splitOnceNul c.1 = some (pre, kv.1) := by
  intro cs
  induction cs with
  | nil =>
    intro l hl kv hkv
    simp only [idxGetLoop, Except.ok.injEq] at hl
    rw [← hl] at hkv
    simp at hkv
  | cons c rest ih =>
    intro l hl kv hkv
    obtain ⟨cb, cu⟩ := c
    simp only [idxGetLoop] at hl
    cases hsp : splitOnceNul cb with
    | none => rw [hsp] at hl; simp at hl
    | some pp =>
      obtain ⟨pre, post⟩ := pp
      rw [hsp] at hl
      simp only [stringKey] at hl
      cases hpg : primGet post with
      | error e => rw [hpg] at hl; simp at hl
      | ok ro =>
        rw [hpg] at hl
        cases ro with
        | none =>
          obtain ⟨c2, hc2, hpre2⟩ := ih hl kv hkv
          exact ⟨c2, List.mem_cons_of_mem _ hc2, hpre2⟩
        | some v =>
          cases hrest : idxGetLoop primGet rest with
          | error e => rw [hrest] at hl; simp at hl
          | ok l2 =>
            rw [hrest] at hl
            simp only [Except.ok.injEq] at hl
            rw [← hl] at hkv
            rcases List.mem_cons.mp hkv with rfl | hkv2
            · exact ⟨(cb, cu), List.mem_cons_self _ _, pre, hsp⟩
            · obtain ⟨c2, hc2, hpre2⟩ := ih hrest kv hkv2
              exact ⟨c2, List.mem_cons_of_mem _ hc2, hpre2⟩

/-- Claim C3 (amended): over index states reachable by inserts of
NUL-free valid-UTF-8 string encodings: (1) at most one forward-table
entry exists per primary key; (2) inserting a new index value for a
primary key whose reverse entry records an old forward entry first
deletes that old forward entry — whenever the new value differs from
the old, the old composite key is gone from the forward table — and
(3) a lookup by the old index value then no longer returns that
primary key, provided the old value's string encoding is not a prefix
of the new value's string encoding; when it is a prefix, the
prefix-based lookup (claim C10) still returns the key through the new
entry, as `c3_counterexample` shows. -/
theorem c3_index_invariant {st : IdxState} (hr : IdxReach st) :
    (∀ v1 v2 k e1 e2, (0 : Nat) ∉ v1 → (0 : Nat) ∉ v2 →
      (v1 ++ 0 :: k, e1) ∈ st.fwd → (v2 ++ 0 :: k, e2) ∈ st.fwd → v1 = v2) ∧
    (∀ vOld vNew k st2, goodStr vNew → goodStr k → (0 : Nat) ∉ vOld →
      tblGet st.rev k = some (rmpStrEnc (vOld ++ 0 :: k)) →
      idxInsertStr st vNew k = .ok st2 →
      ((vOld ≠ vNew → ∀ e2, (vOld ++ 0 :: k, e2) ∉ st2.fwd) ∧
       (vOld.isPrefixOf vNew = false →
        ∀ (V : Type) (primGet : Bytes → Except UniError (Option V)) (l : List (Bytes × V)),
          idxGet st2 primGet vOld = .ok l → ∀ val, (k, val) ∉ l))) := by
  have hinv := idxReach_inv hr
  constructor
  · intro v1 v2 k e1 e2 h1 h2 hm1 hm2
    obtain ⟨va, ka, hga, _, hea1, _, hlinka⟩ := hinv.2.2.1 _ hm1
    obtain ⟨vb2, kb2, hgb, _, heb1, _, hlinkb⟩ := hinv.2.2.1 _ hm2
    have hea1' : v1 ++ 0 :: k = va ++ 0 :: ka := hea1
    have heb1' : v2 ++ 0 :: k = vb2 ++ 0 :: kb2 := heb1
    have hia := nulfree_comp_inj h1 hga.2 hea1'
    have hib := nulfree_comp_inj h2 hgb.2 heb1'
    have hlinka' : tblGet st.rev ka = some (rmpStrEnc (v1 ++ 0 :: k)) := hlinka
    have hlinkb' : tblGet st.rev kb2 = some (rmpStrEnc (v2 ++ 0 :: k)) := hlinkb
    rw [← hia.2] at hlinka'
    rw [← hib.2] at hlinkb'
    have heq := Option.some.inj (hlinka'.symm.trans hlinkb')
    simp only [rmpStrEnc, List.cons.injEq] at heq
    exact (nulfree_comp_inj h1 h2 heq.2).1
  · intro vOld vNew k st2 hgN hgk hOld hrevGet hins
    have hrmem := tblGet_mem hrevGet
    obtain ⟨v0, hgv0, _, hvbe, _⟩ := hinv.2.2.2 (k, rmpStrEnc (vOld ++ 0 :: k)) hrmem
    have hvbe' : rmpStrEnc (vOld ++ 0 :: k) = rmpStrEnc (v0 ++ 0 :: k) := hvbe
    simp only [rmpStrEnc, List.cons.injEq] at hvbe'
    have hOldv0 := (nulfree_comp_inj hOld hgv0.2 hvbe'.2).1
    have hgOld : goodStr vOld := by rw [hOldv0]; exact hgv0
    have hvdec : rmpStrDec (rmpStrEnc (vOld ++ 0 :: k)) = some (vOld ++ 0 :: k) :=
      rmpStr_round (validUtf8_comp hgOld.1 hgk.1)
    have hu : uniGet stringKey strValue st.rev k = .ok (some (vOld ++ 0 :: k)) := by
      simp [uniGet, stringKey, strValue, hrevGet, hvdec]
    obtain ⟨fwd2, rev2⟩ := st2
    simp only [idxInsertStr] at hins
    rw [hu] at hins
    simp only [uniRemove, uniInsert, stringKey, unitValue, strValue,
      Except.ok.injEq, IdxState.mk.injEq] at hins
    obtain ⟨hf2, hr2⟩ := hins
    subst hf2
    subst hr2
    constructor
    · intro hneq e2 hmem2
      rcases mem_tblInsert_sorted (tblSorted_remove _ hinv.1) hmem2 with heq | ⟨hmem3, _⟩
      · have hfst : vOld ++ 0 :: k = vNew ++ 0 :: k := congrArg Prod.fst heq
        exact hneq (nulfree_comp_inj hOld hgN.2 hfst).1
      · have hsome := mem_tblGet (tblSorted_remove _ hinv.1) hmem3
        rw [tblGet_remove_self _ hinv.1] at hsome
        simp at hsome
    · intro hpre V primGet l hget val hval
      have hr2b : IdxReach ⟨tblInsert (tblRemove st.fwd (vOld ++ 0 :: k))
          (vNew ++ 0 :: k) rmpUnitEnc,
          tblInsert st.rev k (rmpStrEnc (vNew ++ 0 :: k))⟩ :=
        IdxReach.insert hr hgN hgk (by
          simp only [idxInsertStr]
          rw [hu]
          simp [uniRemove, uniInsert, stringKey, unitValue, strValue])
      have hinv2 := idxReach_inv hr2b
      simp only [idxGet] at hget
      rw [uniGetPfx_fwd_ok hinv2 vOld] at hget
      have hget2 : idxGetLoop primGet
          ((prefixScan (tblInsert (tblRemove st.fwd (vOld ++ 0 :: k))
            (vNew ++ 0 :: k) rmpUnitEnc) vOld).map (fun e => (e.1, ()))) = .ok l := hget
      obtain ⟨c, hc, pre, hsp⟩ := idxGetLoop_mem_src hget2 (k, val) hval
      obtain ⟨e, he, hce⟩ := List.mem_map.mp hc
      rw [← hce] at hsp
      have hsp' : splitOnceNul e.1 = some (pre, k) := hsp
      have hpref : vOld.isPrefixOf e.1 = true := by simpa using List.of_mem_filter he
      obtain ⟨v1, k1, hg1, _, he1, _, hlink1⟩ :=
        hinv2.2.2.1 e (List.mem_of_mem_filter he)
      have he1' : e.1 = v1 ++ 0 :: k1 := he1
      rw [he1', splitOnceNul_comp hg1.2] at hsp'
      have hk1 : k1 = k := congrArg Prod.snd (Option.some.inj hsp')
      have hlink1' : tblGet (tblInsert st.rev k (rmpStrEnc (vNew ++ 0 :: k))) k1
          = some (rmpStrEnc e.1) := hlink1
      rw [hk1, tblGet_insert_self] at hlink1'
      have henc := Option.some.inj hlink1'
      simp only [rmpStrEnc, List.cons.injEq] at henc
      rw [← henc.2] at hpref
      have hfin := nulfree_isPrefixOf_comp hOld hpref
      rw [hpre] at hfin
      simp at hfin

/-- Witness for C3 (amended) at a concrete run: start from the empty
index, insert ("One", "k"), then insert ("Two", "k"); the old forward
entry "One NUL k" is gone from the forward table. -/
theorem c3_index_invariant_witness :
    ([79, 110, 101] ++ 0 :: [107], [192]) ∉
      (⟨[([84, 119, 111, 0, 107], [192])],
        [([107], [5, 84, 119, 111, 0, 107])]⟩ : IdxState).fwd :=
  ((c3_index_invariant
      (IdxReach.insert IdxReach.empty
        (show goodStr [79, 110, 101] from ⟨by decide, by decide⟩)
        (show goodStr [107] from ⟨by decide, by decide⟩) rfl)).2
    [79, 110, 101] [84, 119, 111] [107]
    ⟨[([84, 119, 111, 0, 107], [192])], [([107], [5, 84, 119, 111, 0, 107])]⟩
    (show goodStr [84, 119, 111] from ⟨by decide, by decide⟩)
    (show goodStr [107] from ⟨by decide, by decide⟩)
    (by decide) (by decide) rfl).1 (by decide) [192]

/-- Claim C3 counterexample: the claim's clause "a lookup by the old
index value no longer returns that primary key" fails when the old
value's encoding is a prefix of the new one's.  Insert ("One", "k")
then ("OneMore", "k") for a primary key "k" live in the primary
table; because lookup is prefix matching, `get("One")` still returns
"k" (via the "OneMore" entry). -/
theorem c3_counterexample :
    idxInsertStr ⟨[], []⟩ [79, 110, 101] [107]
      = .ok ⟨[([79, 110, 101, 0, 107], [192])],
             [([107], [5, 79, 110, 101, 0, 107])]⟩ ∧
    idxInsertStr
      ⟨[([79, 110, 101, 0, 107], [192])], [([107], [5, 79, 110, 101, 0, 107])]⟩
      [79, 110, 101, 77, 111, 114, 101] [107]
      = .ok ⟨[([79, 110, 101, 77, 111, 114, 101, 0, 107], [192])],
             [([107], [9, 79, 110, 101, 77, 111, 114, 101, 0, 107])]⟩ ∧
    idxGet
      ⟨[([79, 110, 101, 77, 111, 114, 101, 0, 107], [192])],
       [([107], [9, 79, 110, 101, 77, 111, 114, 101, 0, 107])]⟩
      (fun kb => uniGet stringKey strValue [([107], [1, 120])] kb) [79, 110, 101]
      = .ok [([107], [120])] :=
  ⟨rfl, rfl, rfl⟩

theorem uniGet_concrete_ok (prim : EngineTable)
    (hwt : ∀ e ∈ prim, (rmpStrDec e.2).isSome = true) :
    ∀ kb, ∃ r, uniGet stringKey strValue prim kb = .ok r := by
  intro kb
  cases htb : tblGet prim kb with
  | none => exact ⟨none, by simp [uniGet, stringKey, strValue, htb]⟩
  | some vb =>
    have hd := hwt (kb, vb) (tblGet_mem htb)
    cases hdec : rmpStrDec vb with
    | none => rw [hdec] at hd; simp at hd
    | some sv => exact ⟨some sv, by simp [uniGet, stringKey, strValue, htb, hdec]⟩

/-- Claim C10 (implicit): index `get` matches by raw string prefix
without appending the separator — every forward entry whose index
value has the queried value's string encoding as a (possibly proper)
prefix contributes its primary key to the result, provided that key
is still live in the primary table. -/
theorem c10_prefix_lookup {st : IdxState} (hr : IdxReach st) {V : Type}
    (primGet : Bytes → Except UniError (Option V)) (vq v2 k : Bytes) (val : V)
    (hpg : ∀ kb, ∃ r, primGet kb = .ok r)
    (hv2 : (0 : Nat) ∉ v2)
    (hmem : (v2 ++ 0 :: k, rmpUnitEnc) ∈ st.fwd)
    (hpre : vq.isPrefixOf v2 = true)
    (hlive : primGet k = .ok (some val)) :
    ∃ l, idxGet st primGet vq = .ok l ∧ (k, val) ∈ l := by
  have hinv := idxReach_inv hr
  have hscan := uniGetPfx_fwd_ok hinv vq
  have hcs : ∀ c ∈ (prefixScan st.fwd vq).map (fun e => (e.1, ())),
      ∃ pre post, splitOnceNul c.1 = some (pre, post) ∧ ∃ r, primGet post = .ok r := by
    intro c hc
    obtain ⟨e, he, hce⟩ := List.mem_map.mp hc
    obtain ⟨v1, k1, hg1, _, he1, _, _⟩ := hinv.2.2.1 e (List.mem_of_mem_filter he)
    have he1' : e.1 = v1 ++ 0 :: k1 := he1
    refine ⟨v1, k1, ?_, hpg k1⟩
    rw [← hce]
    show splitOnceNul e.1 = some (v1, k1)
    rw [he1']
    exact splitOnceNul_comp hg1.2
  obtain ⟨l, hl, _, hcomp⟩ := idxGetLoop_spec primGet _ hcs
  refine ⟨l, ?_, ?_⟩
  · simp only [idxGet]
    rw [hscan]
    exact hl
  · have hcmem : ((v2 ++ 0 :: k, rmpUnitEnc) : Bytes × Bytes) ∈ prefixScan st.fwd vq :=
      List.mem_filter.mpr ⟨hmem, by simpa using isPrefixOf_append_right hpre⟩
    exact hcomp (v2 ++ 0 :: k, ())
      (List.mem_map.mpr ⟨(v2 ++ 0 :: k, rmpUnitEnc), hcmem, rfl⟩)
      v2 k val (splitOnceNul_comp hv2) hlive

/-- Witness for C10 at the claim's own example: entries under index
values "One" (primary key "a") and "OneMore" (primary key "b"), both
live; `get("One")` returns both primary keys. -/
theorem c10_prefix_lookup_witness :
    (∃ l, idxGet
        ⟨[([79, 110, 101, 0, 97], [192]),
          ([79, 110, 101, 77, 111, 114, 101, 0, 98], [192])],
         [([97], [5, 79, 110, 101, 0, 97]),
          ([98], [9, 79, 110, 101, 77, 111, 114, 101, 0, 98])]⟩
        (fun kb => uniGet stringKey strValue [([97], [1, 120]), ([98], [1, 121])] kb)
        [79, 110, 101] = .ok l ∧ ([97], [120]) ∈ l) ∧
    (∃ l, idxGet
        ⟨[([79, 110, 101, 0, 97], [192]),
          ([79, 110, 101, 77, 111, 114, 101, 0, 98], [192])],
         [([97], [5, 79, 110, 101, 0, 97]),
          ([98], [9, 79, 110, 101, 77, 111, 114, 101, 0, 98])]⟩
        (fun kb => uniGet stringKey strValue [([97], [1, 120]), ([98], [1, 121])] kb)
        [79, 110, 101] = .ok l ∧ ([98], [121]) ∈ l) :=
  ⟨c10_prefix_lookup
      (IdxReach.insert
        (IdxReach.insert IdxReach.empty
          (show goodStr [79, 110, 101] from ⟨by decide, by decide⟩)
          (show goodStr [97] from ⟨by decide, by decide⟩) rfl)
        (show goodStr [79, 110, 101, 77, 111, 114, 101] from ⟨by decide, by decide⟩)
        (show goodStr [98] from ⟨by decide, by decide⟩) rfl)
      (fun kb => uniGet stringKey strValue [([97], [1, 120]), ([98], [1, 121])] kb)
      [79, 110, 101] [79, 110, 101] [97] [120]
      (uniGet_concrete_ok _ (by decide)) (by decide) (by decide) (by decide) rfl,
   c10_prefix_lookup
      (IdxReach.insert
        (IdxReach.insert IdxReach.empty
          (show goodStr [79, 110, 101] from ⟨by decide, by decide⟩)
          (show goodStr [97] from ⟨by decide, by decide⟩) rfl)
        (show goodStr [79, 110, 101, 77, 111, 114, 101] from ⟨by decide, by decide⟩)
        (show goodStr [98] from ⟨by decide, by decide⟩) rfl)
      (fun kb => uniGet stringKey strValue [([97], [1, 120]), ([98], [1, 121])] kb)
      [79, 110, 101] [79, 110, 101, 77, 111, 114, 101] [98] [121]
      (uniGet_concrete_ok _ (by decide)) (by decide) (by decide) (by decide) rfl⟩

/-- Claim C4 (amended): for index `get`, a forward entry whose
primary key no longer resolves to a stored value in the primary table
is silently skipped, not an error: the call succeeds, every returned
pair is live, and every live scan entry is returned.  `get_first`,
however, examines only the FIRST forward entry of the scan: when the
scan is empty it returns none; when the first entry's key is live it
returns that match; and when the first entry is dangling it returns
none even if a later entry is live (see `c4_counterexample`). -/
theorem c4_lookup_behavior {st : IdxState} (hr : IdxReach st) {V : Type}
    (primGet : Bytes → Except UniError (Option V)) (vq : Bytes)
    (hpg : ∀ kb, ∃ r, primGet kb = .ok r) :
    (∃ l, idxGet st primGet vq = .ok l ∧
      (∀ kv ∈ l, primGet kv.1 = .ok (some kv.2)) ∧
      (∀ e ∈ prefixScan st.fwd vq, ∀ pre post v2, splitOnceNul e.1 = some (pre, post) →
        primGet post = .ok (some v2) → (post, v2) ∈ l)) ∧
    (prefixScan st.fwd vq = [] → idxGetFirst st primGet vq = .ok none) ∧
    (∀ e rest, prefixScan st.fwd vq = e :: rest →
      ∃ pre post, splitOnceNul e.1 = some (pre, post) ∧
        (primGet post = .ok none → idxGetFirst st primGet vq = .ok none) ∧
        (∀ v2, primGet post = .ok (some v2) →
          idxGetFirst st primGet vq = .ok (some (post, v2)))) := by
  have hinv := idxReach_inv hr
  have hscan := uniGetPfx_fwd_ok hinv vq
  have hcs : ∀ c ∈ (prefixScan st.fwd vq).map (fun e => (e.1, ())),
      ∃ pre post, splitOnceNul c.1 = some (pre, post) ∧ ∃ r, primGet post = .ok r := by
    intro c hc
    obtain ⟨e, he, hce⟩ := List.mem_map.mp hc
    obtain ⟨v1, k1, hg1, _, he1, _, _⟩ := hinv.2.2.1 e (List.mem_of_mem_filter he)
    have he1' : e.1 = v1 ++ 0 :: k1 := he1
    refine ⟨v1, k1, ?_, hpg k1⟩
    rw [← hce]
    show splitOnceNul e.1 = some (v1, k1)
    rw [he1']
    exact splitOnceNul_comp hg1.2
  refine ⟨?_, ?_, ?_⟩
  · obtain ⟨l, hl, hsound, hcomp⟩ := idxGetLoop_spec primGet _ hcs
    refine ⟨l, ?_, fun kv hkv => (hsound kv hkv).1, ?_⟩
    · simp only [idxGet]
      rw [hscan]
      exact hl
    · intro e he pre post v2 hsp hp
      exact hcomp (e.1, ()) (List.mem_map.mpr ⟨e, he, rfl⟩) pre post v2 hsp hp
  · intro hempty
    simp only [idxGetFirst]
    rw [hscan, hempty]
    rfl
  · intro e rest hcons
    obtain ⟨v1, k1, hg1, _, he1, _, _⟩ := hinv.2.2.1 e
      (List.mem_of_mem_filter (show e ∈ prefixScan st.fwd vq from by
        rw [hcons]; exact List.mem_cons_self _ _))
    have he1' : e.1 = v1 ++ 0 :: k1 := he1
    have hsp : splitOnceNul e.1 = some (v1, k1) := by
      rw [he1']
      exact splitOnceNul_comp hg1.2
    refine ⟨v1, k1, hsp, ?_, ?_⟩
    · intro hnone
      simp only [idxGetFirst]
      rw [hscan, hcons]
      simp only [List.map_cons, hsp, stringKey, hnone]
    · intro v2 hp
      simp only [idxGetFirst]
      rw [hscan, hcons]
      simp only [List.map_cons, hsp, stringKey, hp]

/-- Witness for C4 (amended): a state with two forward entries under
index value "A" and a query "X" whose scan is empty; `get_first`
returns none. -/
theorem c4_lookup_behavior_witness :
    idxGetFirst
      ⟨[([65, 0, 107, 49], [192]), ([65, 0, 107, 50], [192])],
       [([107, 49], [4, 65, 0, 107, 49]), ([107, 50], [4, 65, 0, 107, 50])]⟩
      (fun kb => uniGet stringKey strValue [([107, 50], [1, 120])] kb) [88] = .ok none :=
  (c4_lookup_behavior
    (IdxReach.insert
      (IdxReach.insert IdxReach.empty
        (show goodStr [65] from ⟨by decide, by decide⟩)
        (show goodStr [107, 49] from ⟨by decide, by decide⟩) rfl)
      (show goodStr [65] from ⟨by decide, by decide⟩)
      (show goodStr [107, 50] from ⟨by decide, by decide⟩) rfl)
    (fun kb => uniGet stringKey strValue [([107, 50], [1, 120])] kb) [88]
    (uniGet_concrete_ok _ (by decide))).2.1 rfl

/-- Claim C4 counterexample: the claim says `get_first` returns the
first LIVE match, none only when no live match exists.  Build an
index with forward entries ("A", "k1") and ("A", "k2") where "k1" no
longer resolves in the primary table but "k2" does: `get_first("A")`
returns none — it only inspected the dangling first entry — while
`get("A")` proves a live match exists. -/
theorem c4_counterexample :
    idxInsertStr ⟨[], []⟩ [65] [107, 49]
      = .ok ⟨[([65, 0, 107, 49], [192])], [([107, 49], [4, 65, 0, 107, 49])]⟩ ∧
    idxInsertStr ⟨[([65, 0, 107, 49], [192])], [([107, 49], [4, 65, 0, 107, 49])]⟩
      [65] [107, 50]
      = .ok ⟨[([65, 0, 107, 49], [192]), ([65, 0, 107, 50], [192])],
             [([107, 49], [4, 65, 0, 107, 49]), ([107, 50], [4, 65, 0, 107, 50])]⟩ ∧
    idxGetFirst
      ⟨[([65, 0, 107, 49], [192]), ([65, 0, 107, 50], [192])],
       [([107, 49], [4, 65, 0, 107, 49]), ([107, 50], [4, 65, 0, 107, 50])]⟩
      (fun kb => uniGet stringKey strValue [([107, 50], [1, 120])] kb) [65]
      = .ok none ∧
    idxGet
      ⟨[([65, 0, 107, 49], [192]), ([65, 0, 107, 50], [192])],
       [([107, 49], [4, 65, 0, 107, 49]), ([107, 50], [4, 65, 0, 107, 50])]⟩
      (fun kb => uniGet stringKey strValue [([107, 50], [1, 120])] kb) [65]
      = .ok [([107, 50], [120])] :=
  ⟨rfl, rfl, rfl, rfl⟩

end Unistore
